import Mathlib

/-!
Verification of the event-crawl core of `den_social/main/fetch_events.py`.

The Python source is shallowly embedded below.  Decoded JSON-LD documents
(Python dicts/lists produced by `json.loads`) are modelled by the inductive
`Json`; `json.loads` guarantees dict keys are unique, so `Json.obj` carries an
association list assumed key-unique.  Python `datetime` objects are modelled by
`PyDateTime`: a wall-clock value in minutes together with an optional fixed UTC
offset (`none` = a naive datetime).  The configured zone `_tz` is modelled as an
optional fixed UTC offset in minutes; this is exact for `datetime.timezone`
zones and for `ZoneInfo` zones away from a DST transition, and no claim below
depends on DST behaviour.  External collaborators (the ISO parsers of the
`datetime`/`dateutil` libraries, `urllib`'s `urljoin`/`urlparse(..).netloc`,
the HTTP fetcher, the HTML structured-data extractor, and floating-point
`haversine_miles`) are abstracted as function parameters, exactly at the seam
where the source calls them.  Python exceptions are modelled with
`Except PyErr`.
-/

/-- Python exceptions that the embedded code can raise (the distinctions the
claims need: comparison/iteration type errors vs. missing-attribute errors). -/
inductive PyErr where
  | typeError
  | attributeError
  | valueError
  deriving DecidableEq, Repr

/-- A decoded JSON value (the result of Python's `json.loads`): the
loosely-typed document graph the crawler walks.  `obj` keys are unique
(guaranteed by `json.loads`, which keeps the last occurrence of a repeated
key). -/
inductive Json where
  | null
  | bool (b : Bool)
  | num (q : ℚ)
  | str (s : String)
  | arr (xs : List Json)
  | obj (kvs : List (String × Json))

/-- Python truthiness of a decoded JSON value: `None`, `False`, `0`, `""`,
`[]` and `{}` are falsy, everything else truthy. -/
def pyTruthy : Json → Bool
  | .null => false
  | .bool b => b
  | .num q => q ≠ 0
  | .str s => s ≠ ""
  | .arr xs => ¬ xs.isEmpty
  | .obj kvs => ¬ kvs.isEmpty

/-- Python `a or b` on decoded JSON values: `a` if truthy, else `b`. -/
def pyOr (a b : Json) : Json := if pyTruthy a then a else b

/-- Python `d.get(k)` on a decoded dict (`None`, i.e. `null`, when the key is
absent).  Only ever applied to dicts in the embedding; call sites where the
source may call `.get` on a non-dict (and hence raise) guard explicitly. -/
def jget : Json → String → Json
  | .obj kvs, k => (kvs.lookup k).getD .null
  | _, _ => .null

/-- Python `str(...)` of a decoded JSON value.  The exact rendering of
non-string values is irrelevant to every claim (the source only feeds the
result to output fields); string inputs render as themselves, as in Python. -/
def pyStr : Json → String
  | .str s => s
  | .null => "None"
  | .bool true => "True"
  | .bool false => "False"
  | .num q => if q.den = 1 then toString q.num else toString q.num ++ "/" ++ toString q.den
  | .arr _ => "[list]"
  | .obj _ => "[dict]"

/-- Python `s.lower()` (per-character lowering; ASCII-faithful, and no claim
involves non-ASCII case folding).  List-based so that concrete instances
evaluate definitionally. -/
def pyLower (s : String) : String := String.mk (s.data.map Char.toLower)

/-- Python `s.strip()`: remove leading and trailing whitespace. -/
def pyStrip (s : String) : String :=
  String.mk (((s.data.dropWhile Char.isWhitespace).reverse.dropWhile
    Char.isWhitespace).reverse)

/-- Whether `n` is a prefix of `h` (Python `str.startswith`). -/
def startsWithL : List Char → List Char → Bool
  | [], _ => true
  | _ :: _, [] => false
  | a :: as, b :: bs => a = b && startsWithL as bs

/-- Python's substring test on character lists (`needle in hay`). -/
def isSubL (n : List Char) : List Char → Bool
  | [] => n.isEmpty
  | c :: rest => startsWithL n (c :: rest) || isSubL n rest

/-- Replacement loop of Python `s.replace(pat, rep)` for a non-empty pattern,
fuelled by the remaining length (each step consumes at least one character,
so the fuel is never exhausted when started at the list's length). -/
def replaceFuel (pat rep : List Char) : ℕ → List Char → List Char
  | 0, l => l
  | _ + 1, [] => []
  | n + 1, c :: rest =>
    if pat.isPrefixOf (c :: rest) then
      rep ++ replaceFuel pat rep n ((c :: rest).drop pat.length)
    else c :: replaceFuel pat rep n rest

/-- Python `s.replace(pat, rep)`: replace every (left-to-right,
non-overlapping) occurrence; an empty pattern is returned unchanged (the
source only replaces `"Z"`). -/
def pyReplaceStr (s pat rep : String) : String :=
  if pat.data.isEmpty then s
  else String.mk (replaceFuel pat.data rep.data s.data.length s.data)

/-- Split a character list on a separator character (Python `s.split(sep)`;
used by the float grammar below). -/
def splitOnChar (sep : Char) : List Char → List (List Char)
  | [] => [[]]
  | c :: rest =>
    let r := splitOnChar sep rest
    if c = sep then [] :: r
    else
      match r with
      | h :: t => (c :: h) :: t
      | [] => [[c]]

/-- The value of a non-empty all-digit character list. -/
def digitsToNat (cs : List Char) : Option ℕ :=
  if cs.isEmpty || ¬ cs.all Char.isDigit then none
  else some (cs.foldl (fun n c => n * 10 + (c.toNat - 48)) 0)

mutual

/-- `_iter_nodes` (fetch_events.py:117-124): depth-first walk of a decoded
object, yielding every dict node: a dict yields itself and then recursively the
values in key order; a list yields recursively its elements in order. -/
def iterNodes : Json → List Json
  | .obj kvs => .obj kvs :: iterNodesKVs kvs
  | .arr xs => iterNodesArr xs
  | _ => []

/-- Walk of a dict's values, in insertion order (helper of `iterNodes`). -/
def iterNodesKVs : List (String × Json) → List Json
  | [] => []
  | (_, v) :: rest => iterNodes v ++ iterNodesKVs rest

/-- Walk of a list's elements, in order (helper of `iterNodes`). -/
def iterNodesArr : List Json → List Json
  | [] => []
  | x :: rest => iterNodes x ++ iterNodesArr rest

end

/-- `_type_contains` (fetch_events.py:126-134): a node is of type `target` if
its `@type` is a string case-insensitively equal to `target`, or a list with
such a string element; a falsy or otherwise-shaped `@type` never matches. -/
def type_contains (node : Json) (target : String) : Bool :=
  let t := jget node "@type"
  if ¬ pyTruthy t then false
  else match t with
    | .str s => pyLower s = pyLower target
    | .arr xs => xs.any fun x => match x with
        | .str s => pyLower s = pyLower target
        | _ => false
    | _ => false

/-- A Python `datetime`, in minutes: `wall` is the wall-clock reading, `off`
the UTC offset of its `tzinfo` (`none` for a naive datetime).  An aware
datetime denotes the instant `wall - off`. -/
structure PyDateTime where
  wall : ℤ
  off : Option ℤ
  deriving DecidableEq, Repr

/-- The instant an aware datetime denotes (`wall` itself for a naive one):
Python compares aware datetimes by this value. -/
def pyInstant (d : PyDateTime) : ℤ := d.wall - d.off.getD 0

/-- `dt.astimezone(tz)` for a fixed-offset zone `z`: same instant, wall clock
and offset moved to `z`.  The source only calls it on aware datetimes. -/
def astimezone (d : PyDateTime) (z : ℤ) : PyDateTime :=
  { wall := pyInstant d + z, off := some z }

/-- `datetime.max` (a naive datetime; the sort key fallback).  Value: minutes
of 9999-12-31 23:59 from the model epoch 0001-01-01; no claim depends on the
exact figure, only on `datetime.max` being naive. -/
def datetimeMax : PyDateTime := { wall := 5258966399, off := none }

/-- Python `a >= b` on datetimes: aware pairs compare by instant, naive pairs
by wall clock, and a mixed pair raises `TypeError`. -/
def pyGe (a b : PyDateTime) : Except PyErr Bool :=
  match a.off, b.off with
  | some oa, some ob => .ok (decide (a.wall - oa ≥ b.wall - ob))
  | none, none => .ok (decide (a.wall ≥ b.wall))
  | _, _ => .error .typeError

/-- Python `a <= b` on datetimes (same comparability rule as `pyGe`). -/
def pyLe (a b : PyDateTime) : Except PyErr Bool :=
  match a.off, b.off with
  | some oa, some ob => .ok (decide (a.wall - oa ≤ b.wall - ob))
  | none, none => .ok (decide (a.wall ≤ b.wall))
  | _, _ => .error .typeError

/-- `dt - timedelta(minutes=m)` / `dt + timedelta(...)`: wall-clock
arithmetic, keeping the `tzinfo`. -/
def pyAddMin (d : PyDateTime) (m : ℤ) : PyDateTime := { d with wall := d.wall + m }

/-- The external date-parsing collaborators of `parse_iso_to_local`:
`datetime.fromisoformat` (after the source's `Z` replacement the argument is
what the source passes) and `dateutil.parser.parse`, each returning `none`
where the Python call raises. -/
structure DtLib where
  fromiso : String → Option PyDateTime
  dateutil : String → Option PyDateTime

/-- The compiled regex `^\d{4}-\d{2}-\d{2}` of fetch_events.py:278 (a prefix
match, as `re.match` anchors at the start only). -/
def dtReMatch (s : String) : Bool :=
  match s.data with
  | a :: b :: c :: d :: s1 :: e :: f :: s2 :: g :: h :: _ =>
      a.isDigit && b.isDigit && c.isDigit && d.isDigit && s1 = '-' &&
      e.isDigit && f.isDigit && s2 = '-' && g.isDigit && h.isDigit
  | _ => false

/-- Normalisation tail of `parse_iso_to_local` (fetch_events.py:298-302): a
naive result is stamped UTC, then converted to the configured zone when one is
configured. -/
def parseFinalize (tz : Option ℤ) (d : PyDateTime) : PyDateTime :=
  let d1 := match d.off with
    | none => { d with off := some 0 }
    | some _ => d
  match tz with
  | some z => astimezone d1 z
  | none => d1

/-- `parse_iso_to_local` (fetch_events.py:280-304): lenient parse of an
optional ISO string.  Try `fromisoformat` on the `Z`-replaced string; on
failure, if the string starts like a bare date, try `fromisoformat` again with
`"T00:00:00"` appended — a failure there propagates to the enclosing
`except` (so `dateutil` is NOT reached on that path); otherwise fall back to
`dateutil.parser.parse`.  A naive result is treated as UTC; the result is
converted to the configured zone. -/
def parse_iso_to_local (lib : DtLib) (tz : Option ℤ) (isoVal : Option String) :
    Option PyDateTime :=
  match isoVal with
  | none => none
  | some s =>
    if s = "" then none
    else
      match lib.fromiso (pyReplaceStr s "Z" "+00:00") with
      | some d => some (parseFinalize tz d)
      | none =>
        if dtReMatch s then
          match lib.fromiso (s ++ "T00:00:00") with
          | some d => some (parseFinalize tz d)
          | none => none
        else
          match lib.dateutil s with
          | some d => some (parseFinalize tz d)
          | none => none

/-- The `Event` dataclass (fetch_events.py:53-65).  `title` and `url` are kept
as raw decoded values (the builder stores whatever truthy value the node
carried there); the remaining fields are the types the builder actually
produces.  Coordinates are rationals standing for the parsed float64 values. -/
structure Event where
  title : Json
  start_dt : Option String
  end_dt : Option String
  venue : Option String
  address : Option String
  price : Option String
  url : Json
  source : Option String
  lat : Option ℚ := none
  lon : Option ℚ := none
  raw_source_url : Option String := none

/-- The configuration struct at the pipeline entry (spec §6; the module-level
constants imported from `events_config` in the source). -/
structure Config where
  neighborhood : String
  city : String
  centerLat : ℚ
  centerLon : ℚ
  radiusMiles : ℚ
  futureDaysLimit : ℤ
  maxSeedPages : ℕ
  maxFollowPerSeed : ℕ
  maxEvents : ℕ
  sourcePages : List String

/-- Python's substring test `needle in hay`: contiguous occurrence of the
needle's code points inside the hay's. -/
def pyInStr (needle hay : String) : Bool := isSubL needle.data hay.data

/-- The haversine collaborator: `haversine_miles` (fetch_events.py:257-263)
computes with float64 trigonometry, which has no shallow embedding; it is
abstracted as an oracle returning the distance, or an error where the float
computation raises (the `except` branch of `in_geofence`). -/
def HavOracle : Type := ℚ → ℚ → ℚ → ℚ → Except PyErr ℚ

/-- The text the geofence fallback searches (fetch_events.py:272): the
space-join of the truthy entries among `venue or ""` and `address or ""`,
lowercased. -/
def geofenceText (ev : Event) : String :=
  pyLower (String.intercalate " "
    (List.filter (fun s => s ≠ "") [ev.venue.getD "", ev.address.getD ""]))

/-- `in_geofence` (fetch_events.py:265-276): with both coordinates, accept iff
the haversine distance from the configured center is at most the radius,
accepting outright if the distance computation raises; without both
coordinates, accept iff the lowercased neighborhood or city name occurs in the
lowercased venue/address text. -/
def in_geofence (hav : HavOracle) (cfg : Config) (ev : Event) : Bool :=
  match ev.lat, ev.lon with
  | some la, some lo =>
    match hav cfg.centerLat cfg.centerLon la lo with
    | .ok d => decide (d ≤ cfg.radiusMiles)
    | .error _ => true
  | _, _ =>
    let text := geofenceText ev
    pyInStr (pyLower cfg.neighborhood) text || pyInStr (pyLower cfg.city) text

/-- `within_future_window` (fetch_events.py:306-311): accept when the start
does not parse; otherwise accept iff `start >= now - 1 day` and (short-circuit)
`start <= now + FUTURE_DAYS_LIMIT days`.  The datetime comparisons raise when
one side is naive and the other aware. -/
def within_future_window (lib : DtLib) (tz : Option ℤ) (horizon : ℤ)
    (now : PyDateTime) (ev : Event) : Except PyErr Bool :=
  match parse_iso_to_local lib tz ev.start_dt with
  | none => .ok true
  | some start => do
    let b1 ← pyGe start (pyAddMin now (-1440))
    if b1 then pyLe start (pyAddMin now (horizon * 1440)) else pure false

/-- Truthiness of an optional string field (Python: `None` and `""` falsy). -/
def truthyOptStr : Option String → Bool
  | none => false
  | some s => s ≠ ""

/-- Truthiness of an optional float field (Python: `None` and `0.0` falsy). -/
def truthyOptQ : Option ℚ → Bool
  | none => false
  | some q => q ≠ 0

/-- The completeness score of `dedupe_events` (fetch_events.py:327-328): the
number of truthy values among venue, address, price, url, source, lat, lon,
end — Python truthiness, so an empty string, a missing value, and a 0.0
coordinate all count as absent. -/
def score (e : Event) : ℕ :=
  [truthyOptStr e.venue, truthyOptStr e.address, truthyOptStr e.price,
   pyTruthy e.url, truthyOptStr e.source, truthyOptQ e.lat, truthyOptQ e.lon,
   truthyOptStr e.end_dt].count true

/-- `ev.title.strip().lower()`: raises `AttributeError` when the stored title
is not a string. -/
def pyStripLower (t : Json) : Except PyErr String :=
  match t with
  | .str s => .ok (pyLower (pyStrip s))
  | _ => .error .attributeError

/-- The dedup identity key: normalised title together with the day number of
the parsed local start (`none` encodes the `""` date part of an unparsable
start; date strings are never empty, so the encoding is faithful). -/
abbrev DKey : Type := String × Option ℤ

/-- The day number `strftime("%Y-%m-%d")` identifies: the floor of the local
wall clock in days. -/
def dayNumber (d : PyDateTime) : ℤ := Int.fdiv d.wall 1440

/-- The `key` function of `dedupe_events` (fetch_events.py:314-318). -/
def dkey (lib : DtLib) (tz : Option ℤ) (ev : Event) : Except PyErr DKey := do
  let t ← pyStripLower ev.title
  pure (t, (parse_iso_to_local lib tz ev.start_dt).map dayNumber)

/-- Boolean list membership by decidable equality (Python `in`), kept as one
fixed function so every membership test in the embedding is the same term. -/
def memB {α : Type} [DecidableEq α] (x : α) : List α → Bool
  | [] => false
  | y :: rest => if x = y then true else memB x rest

/-- One step of the `seen` insertion-ordered dict of `dedupe_events`: a new
key is appended; a colliding key keeps its position and is replaced only by a
strictly higher score. -/
def dedupeStep (seen : List (DKey × Event)) (k : DKey) (ev : Event) :
    List (DKey × Event) :=
  if memB k (seen.map Prod.fst) then
    seen.map (fun p => if p.1 = k ∧ score ev > score p.2 then (k, ev) else p)
  else
    seen ++ [(k, ev)]

/-- The loop of `dedupe_events` over the input events. -/
def dedupeGo (lib : DtLib) (tz : Option ℤ) :
    List Event → List (DKey × Event) → Except PyErr (List (DKey × Event))
  | [], seen => .ok seen
  | ev :: rest, seen => do
    let k ← dkey lib tz ev
    dedupeGo lib tz rest (dedupeStep seen k ev)

/-- `dedupe_events` (fetch_events.py:313-331): fold the events into an
insertion-ordered dict keyed by `dkey`, replacing an entry only on a strictly
higher completeness score, and return the kept values in key-first-seen
order. -/
def dedupe_events (lib : DtLib) (tz : Option ℤ) (events : List Event) :
    Except PyErr (List Event) :=
  (dedupeGo lib tz events []).map (List.map Prod.snd)

/-- The sort key of `sort_events` (fetch_events.py:334-336): parsed local
start (or naive `datetime.max`) and lowercased title; `title.lower()` raises
on a non-string title. -/
def sortKeyM (lib : DtLib) (tz : Option ℤ) (ev : Event) :
    Except PyErr (PyDateTime × String) :=
  match ev.title with
  | .str s => .ok ((parse_iso_to_local lib tz ev.start_dt).getD datetimeMax, pyLower s)
  | _ => .error .attributeError

/-- Total counterpart of `sortKeyM` (used only where `sortKeyM` is known to
succeed, i.e. the title is a string). -/
def sortKeyPure (lib : DtLib) (tz : Option ℤ) (ev : Event) : PyDateTime × String :=
  ((parse_iso_to_local lib tz ev.start_dt).getD datetimeMax,
   match ev.title with
   | .str s => pyLower s
   | _ => "")

/-- The value Python's tuple comparison orders sort keys by: the instant for
an aware datetime, the wall clock for a naive one (all naive keys are
`datetime.max`, so on a comparable key list this is exactly Python's order). -/
def keyMeasure (k : PyDateTime × String) : ℤ := pyInstant k.1

/-- The sort order on events induced by the sort keys: datetime measure, then
lowercased title (Python compares strings by code point, as Lean does). -/
def evLe (lib : DtLib) (tz : Option ℤ) (a b : Event) : Prop :=
  keyMeasure (sortKeyPure lib tz a) < keyMeasure (sortKeyPure lib tz b) ∨
    (keyMeasure (sortKeyPure lib tz a) = keyMeasure (sortKeyPure lib tz b) ∧
      (sortKeyPure lib tz a).2 ≤ (sortKeyPure lib tz b).2)

instance (lib : DtLib) (tz : Option ℤ) : DecidableRel (evLe lib tz) := by
  intro a b
  unfold evLe
  infer_instance

/-- A key list is comparable when its datetimes are all aware or all naive:
Python's tuple comparison between an aware and a naive datetime raises
`TypeError`, and a comparison sort on a list containing both must perform at
least one such mixed comparison (`==` across the mix is `False`, so the title
tiebreak is never reached there). -/
def uniformKeys (ks : List (PyDateTime × String)) : Bool :=
  ks.all (fun k => k.1.off.isSome) || ks.all (fun k => k.1.off.isNone)

/-- `sort_events` (fetch_events.py:333-337): `sorted(events, key=sort_key)` —
compute every key (raising on a non-string title), then: on a comparable key
list, the unique stable ascending ordering (realised by insertion sort); on a
mixed aware/naive key list CPython's sort raises `TypeError`. -/
def sort_events (lib : DtLib) (tz : Option ℤ) (events : List Event) :
    Except PyErr (List Event) := do
  let ks ← events.mapM (sortKeyM lib tz)
  if uniformKeys ks then pure (events.insertionSort (evLe lib tz))
  else throw .typeError

/-- `_take_first` (fetch_events.py:165-169): the first argument that is a
string with non-blank content, stripped. -/
def take_first (vals : List Json) : Option String :=
  vals.findSome? fun v => match v with
    | .str s => if pyStrip s = "" then none else some (pyStrip s)
    | _ => none

/-- Whether a decoded value is `null` (Python `None`). -/
def jIsNull : Json → Bool
  | .null => true
  | _ => false

/-- Python's `float(<decimal string>)`, on plain signed decimals; the grammar
beyond these (exponents, infinities) is irrelevant to every claim. -/
def parseDecimal (s : String) : Option ℚ :=
  let t := (pyStrip s).data
  let sgn : ℚ := match t with
    | '-' :: _ => -1
    | _ => 1
  let rest : List Char := match t with
    | '-' :: r => r
    | '+' :: r => r
    | r => r
  match splitOnChar '.' rest with
  | [ip] => (digitsToNat ip).map fun n => sgn * n
  | [ip, fp] =>
    if ip.isEmpty && fp.isEmpty then none
    else
      match (if ip.isEmpty then some 0 else digitsToNat ip),
            (if fp.isEmpty then some 0 else digitsToNat fp) with
      | some a, some b => some (sgn * ((a : ℚ) + (b : ℚ) / 10 ^ fp.length))
      | _, _ => none
  | _ => none

/-- Python `float(x)` on a decoded value: numbers and numeric strings convert,
booleans convert to 0/1, anything else raises. -/
def pyFloat : Json → Except PyErr ℚ
  | .num q => .ok q
  | .str s =>
    match parseDecimal s with
    | some q => .ok q
    | none => .error .valueError
  | .bool b => .ok (if b then 1 else 0)
  | _ => .error .typeError

/-- The geo block of the builder (fetch_events.py:205-211): inside a `try`,
parse `latitude` and then `longitude` when each is present (`is not None`);
any raise inside the block — a malformed number, or `.get` on a truthy
non-dict geo — resets BOTH coordinates to `None`. -/
def geoParse (geo : Json) : Option ℚ × Option ℚ :=
  match geo with
  | .obj _ =>
    let res : Except PyErr (Option ℚ × Option ℚ) := do
      let la ← if jIsNull (jget geo "latitude") then pure none
               else (pyFloat (jget geo "latitude")).map some
      let lo ← if jIsNull (jget geo "longitude") then pure none
               else (pyFloat (jget geo "longitude")).map some
      pure (la, lo)
    match res with
    | .ok p => p
    | .error _ => (none, none)
  | _ => (none, none)

/-- A decoded value required to be a string (`TypeError` otherwise). -/
def asStr : Json → Except PyErr String
  | .str s => .ok s
  | _ => .error .typeError

/-- Python `sep.join(vals)`: raises `TypeError` when a value is not a
string. -/
def joinStrs (sep : String) (vals : List Json) : Except PyErr String :=
  (vals.mapM asStr).map (String.intercalate sep)

/-- The location block of the builder (fetch_events.py:185-214), returning
(venue, address text, lat, lon).  On a dict location the source first
evaluates `(loc.get("address") or {}).get("name")` — which raises
`AttributeError` when the address is a truthy non-dict (e.g. a plain string) —
then the address text, then the geo block. -/
def buildLoc (loc : Json) :
    Except PyErr (Option String × Option String × Option ℚ × Option ℚ) :=
  match loc with
  | .obj _ => do
    let laddr := jget loc "address"
    let addrOr := if pyTruthy laddr then laddr else .obj []
    let nm2 ← match addrOr with
      | .obj _ => pure (jget addrOr "name")
      | _ => throw PyErr.attributeError
    let venue := take_first [jget loc "name", nm2]
    let address_text ← match laddr with
      | .obj _ => do
        let comps := [jget laddr "streetAddress", jget laddr "addressLocality",
                      jget laddr "addressRegion", jget laddr "postalCode"].filter pyTruthy
        let s ← joinStrs ", " comps
        pure (if s = "" then none else some s)
      | .str s => pure (some s)
      | _ => pure none
    let g := geoParse (pyOr (jget loc "geo") (.obj []))
    pure (venue, address_text, g.1, g.2)
  | .str s => pure (none, some s, none, none)
  | _ => pure (none, none, none, none)

/-- The `priceCurrency and f"{priceCurrency} {price}"` argument of the offer
price (fetch_events.py:221,230): the f-string when the currency is truthy,
else the falsy currency itself (which `_take_first` then skips). -/
def priceArg (o : Json) : Json :=
  let cur := jget o "priceCurrency"
  if pyTruthy cur then .str (pyStr cur ++ " " ++ pyStr (jget o "price")) else cur

/-- The price extracted from one offer dict (fetch_events.py:220-224). -/
def offerPrice (o : Json) : Option String :=
  take_first [priceArg o, jget o "price", jget o "description"]

/-- The offers block of the builder (fetch_events.py:217-235): one dict is
read directly; a list yields the first offer dict whose extraction is truthy;
anything else leaves the price `None`. -/
def buildPrice (offers : Json) : Option String :=
  match offers with
  | .obj kvs => offerPrice (.obj kvs)
  | .arr offs => offs.findSome? fun off => match off with
      | .obj _ => offerPrice off
      | _ => none
  | _ => none

/-- `urlparse(..).netloc` applied to the builder's `url or raw_source_url`
value (fetch_events.py:182): the host of a string value, a raise on a truthy
non-string. -/
def urlNetloc (nl : String → String) (u : Json) : Except PyErr String :=
  match u with
  | .str s => pure (nl s)
  | _ => throw PyErr.attributeError

/-- The record one "Event" node yields (fetch_events.py:237-249), given the
already-computed `urlparse` result `d1` and location tuple `locp`: the raw
`name or ""` as title, stringified truthy start/end, the offer price, the node
url (or the page url), the source host (with page-host fallback), and the
page as provenance. -/
def buildRecord (nl : String → String) (raw : String) (node : Json)
    (d1 : String) (locp : Option String × Option String × Option ℚ × Option ℚ) :
    Event :=
  let start := pyOr (jget node "startDate") (jget node "startTime")
  let endv := pyOr (jget node "endDate") (jget node "endTime")
  let url := pyOr (jget node "url") (jget node "@id")
  let source_domain := if d1 = "" then nl raw else d1
  { title := pyOr (jget node "name") (.str "")
    start_dt := if pyTruthy start then some (pyStr start) else none
    end_dt := if pyTruthy endv then some (pyStr endv) else none
    venue := locp.1
    address := locp.2.1
    price := buildPrice (jget node "offers")
    url := pyOr url (.str raw)
    source := if source_domain = "" then none else some source_domain
    lat := locp.2.2.1
    lon := locp.2.2.2
    raw_source_url := some raw }

/-- One node of `parse_events_from_jsonld` (fetch_events.py:174-251): skip
non-"Event" nodes; otherwise compute the `urlparse(..).netloc` of the url (a
raise on a truthy non-string url), the location tuple (which can raise), and
keep the assembled record only when its title (`name or ""`) is truthy. -/
def buildNode (nl : String → String) (raw : String) (node : Json) :
    Except PyErr (Option Event) :=
  if ¬ type_contains node "Event" then pure none
  else
    urlNetloc nl (pyOr (pyOr (jget node "url") (jget node "@id")) (.str raw)) >>=
      fun d1 => buildLoc (jget node "location") >>= fun locp =>
        pure (if pyTruthy (buildRecord nl raw node d1 locp).title then
          some (buildRecord nl raw node d1 locp) else none)

/-- The node loop of `parse_events_from_jsonld`, accumulating kept records in
order. -/
def buildGo (nl : String → String) (raw : String) :
    List Json → List Event → Except PyErr (List Event)
  | [], acc => .ok acc
  | n :: rest, acc => do
    let r ← buildNode nl raw n
    buildGo nl raw rest (match r with | some ev => acc ++ [ev] | none => acc)

/-- `parse_events_from_jsonld` (fetch_events.py:171-252): walk every node of
every decoded object and build a record from each "Event" node with a usable
name. -/
def parse_events_from_jsonld (nl : String → String) (objs : List Json)
    (raw : String) : Except PyErr (List Event) :=
  buildGo nl raw (objs.flatMap iterNodes) []

/-- Python `for x in v`: lists iterate elements, dicts their keys, strings
their characters; other values raise `TypeError`. -/
def pyIterJ : Json → Except PyErr (List Json)
  | .arr xs => .ok xs
  | .obj kvs => .ok (kvs.map fun p => .str p.1)
  | .str s => .ok (s.data.map fun c => .str c.toString)
  | _ => .error .typeError

/-- The URL of one list item (fetch_events.py:146-151): a dict item's `url`,
or — when that is falsy and a nested `item` dict exists — the nested dict's
`url` or `@id`; non-dict items yield `None`. -/
def itemURL (it : Json) : Json :=
  match it with
  | .obj _ =>
    let u := jget it "url"
    if pyTruthy u then u
    else match jget it "item" with
      | .obj sub => pyOr (jget (.obj sub) "url") (jget (.obj sub) "@id")
      | _ => u
  | _ => .null

/-- The item loop of link discovery: append `urljoin(base, url)` for each
truthy item URL; `urljoin` of a truthy non-string raises. -/
def collectGoItems (uj : String → String → String) (base : String) :
    List Json → List String → Except PyErr (List String)
  | [], acc => .ok acc
  | it :: rest, acc =>
    let url := itemURL it
    if pyTruthy url then
      match url with
      | .str s => collectGoItems uj base rest (acc ++ [uj base s])
      | _ => throw PyErr.typeError
    else collectGoItems uj base rest acc

/-- The node loop of link discovery (fetch_events.py:141-153): inspect only
"ItemList" / "SearchResultsPage" nodes, iterating `itemListElement or []`. -/
def collectGoNodes (uj : String → String → String) (base : String) :
    List Json → List String → Except PyErr (List String)
  | [], acc => .ok acc
  | node :: rest, acc =>
    if type_contains node "ItemList" || type_contains node "SearchResultsPage" then do
      let items ← pyIterJ (pyOr (jget node "itemListElement") (.arr []))
      let acc' ← collectGoItems uj base items acc
      collectGoNodes uj base rest acc'
    else collectGoNodes uj base rest acc

/-- The collection phase of `discover_event_links_from_jsonld`: all candidate
links in graph order, before de-duplication. -/
def collectLinks (uj : String → String → String) (objs : List Json)
    (base : String) : Except PyErr (List String) :=
  collectGoNodes uj base (objs.flatMap iterNodes) []

/-- The de-dup/limit loop of `discover_event_links_from_jsonld`
(fetch_events.py:155-162): keep first occurrences, checking
`len(ordered) >= limit` AFTER each element is processed (so a fresh element is
appended before the check — with `limit = 0` a first link still gets in). -/
def dedupLimitGo (limit : ℕ) : List String → List String → List String
  | [], ordered => ordered
  | u :: rest, ordered =>
    let o' := if memB u ordered then ordered else ordered ++ [u]
    if limit ≤ o'.length then o' else dedupLimitGo limit rest o'

/-- `discover_event_links_from_jsonld` (fetch_events.py:136-163). -/
def discover_event_links_from_jsonld (uj : String → String → String)
    (objs : List Json) (base : String) (limit : ℕ) : Except PyErr (List String) :=
  (collectLinks uj objs base).map fun links => dedupLimitGo limit links []

/-- The list comprehension `[ev for ev in l if f(ev)]` for a test that can
raise: evaluate the test per element, in order. -/
def pyFilterM (f : Event → Except PyErr Bool) :
    List Event → Except PyErr (List Event)
  | [] => .ok []
  | x :: xs => do
    let b ← f x
    let rest ← pyFilterM f xs
    pure (if b then x :: rest else rest)

/-- The sanitisation pipeline of `crawl_events` (fetch_events.py:452-459),
before the final cap: geofence filter, then time-window filter, then dedup,
then sort. -/
def pipelineP (hav : HavOracle) (cfg : Config) (lib : DtLib) (tz : Option ℤ)
    (now : PyDateTime) (xs : List Event) : Except PyErr (List Event) :=
  pyFilterM (within_future_window lib tz cfg.futureDaysLimit now)
      (xs.filter (in_geofence hav cfg)) >>=
    fun l2 => dedupe_events lib tz l2 >>= fun l3 => sort_events lib tz l3

/-- The tail of `crawl_events` (fetch_events.py:452-463): the pipeline, then
truncation to the global cap. -/
def crawlFinalize (hav : HavOracle) (cfg : Config) (lib : DtLib)
    (tz : Option ℤ) (now : PyDateTime) (acc : List Event) :
    Except PyErr (List Event) := do
  let l ← pipelineP hav cfg lib tz now acc
  pure (if cfg.maxEvents < l.length then l.take cfg.maxEvents else l)

/-- The detail-link loop of one seed (fetch_events.py:438-444): fetch each
link (a failed fetch contributes nothing) and parse its events with the SEED
as `raw_source_url`. -/
def crawlGoLinks (nl : String → String) (fetch : String → Option String)
    (extract : String → List Json) (seed : String) :
    List String → List Event → Except PyErr (List Event)
  | [], acc => .ok acc
  | link :: ls, acc =>
    match fetch link with
    | none => crawlGoLinks nl fetch extract seed ls acc
    | some h => do
      let evs ← parse_events_from_jsonld nl (extract h) seed
      crawlGoLinks nl fetch extract seed ls (acc ++ evs)

/-- The seed loop of `crawl_events` (fetch_events.py:426-450): per seed, fetch
(a failure skips the seed, including the cap check), parse direct events,
discover and follow detail links, and break out to the pipeline once the
accumulated count reaches the cap. -/
def crawlGoSeeds (cfg : Config) (fetch : String → Option String)
    (extract : String → List Json) (nl : String → String)
    (uj : String → String → String) (hav : HavOracle) (lib : DtLib)
    (tz : Option ℤ) (now : PyDateTime) :
    List String → List Event → Except PyErr (List Event)
  | [], acc => crawlFinalize hav cfg lib tz now acc
  | seed :: rest, acc =>
    match fetch seed with
    | none => crawlGoSeeds cfg fetch extract nl uj hav lib tz now rest acc
    | some html => do
      let objs := extract html
      let direct ← parse_events_from_jsonld nl objs seed
      let links ← discover_event_links_from_jsonld uj objs seed cfg.maxFollowPerSeed
      let acc2 ← crawlGoLinks nl fetch extract seed links (acc ++ direct)
      if cfg.maxEvents ≤ acc2.length then crawlFinalize hav cfg lib tz now acc2
      else crawlGoSeeds cfg fetch extract nl uj hav lib tz now rest acc2

/-- `crawl_events` (fetch_events.py:422-463): crawl the first
`MAX_SEED_PAGES` configured seeds and reduce the accumulated records through
the pipeline. -/
def crawl_events (cfg : Config) (fetch : String → Option String)
    (extract : String → List Json) (nl : String → String)
    (uj : String → String → String) (hav : HavOracle) (lib : DtLib)
    (tz : Option ℤ) (now : PyDateTime) : Except PyErr (List Event) :=
  crawlGoSeeds cfg fetch extract nl uj hav lib tz now
    (cfg.sourcePages.take cfg.maxSeedPages) []

/-- `startsWithL` decides list prefixhood. -/
theorem startsWithL_iff_prefix (n h : List Char) :
    startsWithL n h = true ↔ n <+: h := by
  induction n generalizing h with
  | nil => simp [startsWithL]
  | cons a as ih =>
    cases h with
    | nil => simp [startsWithL]
    | cons b bs =>
      simp only [startsWithL, Bool.and_eq_true, decide_eq_true_eq, ih,
        List.cons_prefix_cons]

/-- `isSubL` decides the contiguous-substring (infix) relation: the meaning of
Python's `in` on strings. -/
theorem isSubL_iff_infix (n h : List Char) : isSubL n h = true ↔ n <:+: h := by
  induction h with
  | nil => simp [isSubL, List.isEmpty_iff, List.infix_nil]
  | cons c rest ih =>
    simp [isSubL, startsWithL_iff_prefix, ih, List.infix_cons_iff]

/-- The geofence decision as the specification words it: with both
coordinates, accepted exactly when the computed distance is at most the radius
(boundary included), and always when the computation fails; otherwise exactly
when the lowercased neighborhood or city name occurs in the lowercased
venue/address text. -/
def geofenceSpec (hav : HavOracle) (cfg : Config) (ev : Event) : Prop :=
  match ev.lat, ev.lon with
  | some la, some lo =>
    (∃ d, hav cfg.centerLat cfg.centerLon la lo = .ok d ∧ d ≤ cfg.radiusMiles) ∨
      (∃ e, hav cfg.centerLat cfg.centerLon la lo = .error e)
  | _, _ =>
    (pyLower cfg.neighborhood).data <:+: (geofenceText ev).data ∨
      (pyLower cfg.city).data <:+: (geofenceText ev).data

/-- C5: for every Event with both coordinates, `in_geofence` accepts iff the
haversine distance from the configured center is at most the radius (boundary
accepted), and accepts whenever the distance computation fails; for every
Event without both coordinates, it accepts iff the lowercased neighborhood or
city name is a substring of the lowercased venue/address concatenation. -/
theorem in_geofence_iff (hav : HavOracle) (cfg : Config) (ev : Event) :
    in_geofence hav cfg ev = true ↔ geofenceSpec hav cfg ev := by
  cases hl : ev.lat with
  | none =>
    cases ho : ev.lon with
    | none => simp [in_geofence, geofenceSpec, hl, ho, pyInStr, isSubL_iff_infix]
    | some lo => simp [in_geofence, geofenceSpec, hl, ho, pyInStr, isSubL_iff_infix]
  | some la =>
    cases ho : ev.lon with
    | none => simp [in_geofence, geofenceSpec, hl, ho, pyInStr, isSubL_iff_infix]
    | some lo =>
      cases hv : hav cfg.centerLat cfg.centerLon la lo with
      | ok d => simp [in_geofence, geofenceSpec, hl, ho, hv]
      | error e => simp [in_geofence, geofenceSpec, hl, ho, hv]

/-- Binding a success in `Except` applies the continuation. -/
theorem exc_bind_ok {α β : Type} (a : α) (f : α → Except PyErr β) :
    (Except.ok a >>= f : Except PyErr β) = f a := rfl

/-- Binding a failure in `Except` propagates it. -/
theorem exc_bind_error {α β : Type} (e : PyErr) (f : α → Except PyErr β) :
    (Except.error e >>= f : Except PyErr β) = .error e := rfl

/-- Any successful `parseFinalize` result is aware. -/
theorem parseFinalize_off (tz : Option ℤ) (d : PyDateTime) :
    (parseFinalize tz d).off.isSome := by
  obtain ⟨w, o⟩ := d
  cases o <;> cases tz <;> simp [parseFinalize, astimezone]

/-- Every datetime `parse_iso_to_local` returns is aware: a naive library
result is stamped UTC before any zone conversion. -/
theorem parse_iso_to_local_off (lib : DtLib) (tz : Option ℤ)
    (iso : Option String) (d : PyDateTime)
    (h : parse_iso_to_local lib tz iso = some d) : d.off.isSome := by
  unfold parse_iso_to_local at h
  cases iso with
  | none => exact absurd h (by simp)
  | some s =>
    by_cases hs : s = ""
    · simp [hs] at h
    · simp only [hs, if_false] at h
      cases h1 : lib.fromiso (pyReplaceStr s "Z" "+00:00") with
      | some d1 =>
        simp only [h1] at h
        cases h
        exact parseFinalize_off tz d1
      | none =>
        simp only [h1] at h
        by_cases hre : dtReMatch s = true
        · simp only [hre, if_true] at h
          cases h2 : lib.fromiso (s ++ "T00:00:00") with
          | some d2 =>
            simp only [h2] at h
            cases h
            exact parseFinalize_off tz d2
          | none => simp [h2] at h
        · simp only [hre, if_false] at h
          cases h3 : lib.dateutil s with
          | some d3 =>
            simp only [h3] at h
            cases h
            exact parseFinalize_off tz d3
          | none => simp [h3] at h

/-- With a zone configured, every parsed datetime carries that zone's offset,
and its wall clock is the denoted instant shifted by it. -/
theorem parse_iso_to_local_tz (lib : DtLib) (z : ℤ) (iso : Option String)
    (d : PyDateTime) (h : parse_iso_to_local lib (some z) iso = some d) :
    d.off = some z ∧ d.wall = pyInstant d + z := by
  have hfin : ∀ d0 : PyDateTime, (parseFinalize (some z) d0).off = some z ∧
      (parseFinalize (some z) d0).wall = pyInstant (parseFinalize (some z) d0) + z := by
    intro d0
    obtain ⟨w, o⟩ := d0
    cases o <;> simp [parseFinalize, astimezone, pyInstant]
  unfold parse_iso_to_local at h
  cases iso with
  | none => exact absurd h (by simp)
  | some s =>
    by_cases hs : s = ""
    · simp [hs] at h
    · simp only [hs, if_false] at h
      cases h1 : lib.fromiso (pyReplaceStr s "Z" "+00:00") with
      | some d1 =>
        simp only [h1] at h
        cases h
        exact hfin d1
      | none =>
        simp only [h1] at h
        by_cases hre : dtReMatch s = true
        · simp only [hre, if_true] at h
          cases h2 : lib.fromiso (s ++ "T00:00:00") with
          | some d2 =>
            simp only [h2] at h
            cases h
            exact hfin d2
          | none => simp [h2] at h
        · simp only [hre, if_false] at h
          cases h3 : lib.dateutil s with
          | some d3 =>
            simp only [h3] at h
            cases h
            exact hfin d3
          | none => simp [h3] at h

/-- The time-window decision as the claim words it: accept when the start does
not parse at all, otherwise accept iff the start instant lies in
`[now - 1 day, now + horizon days]`. -/
def windowSpec (lib : DtLib) (tz : Option ℤ) (horizon : ℤ) (now : PyDateTime)
    (ev : Event) : Bool :=
  match parse_iso_to_local lib tz ev.start_dt with
  | none => true
  | some st => decide (pyInstant now - 1440 ≤ pyInstant st ∧
      pyInstant st ≤ pyInstant now + horizon * 1440)

/-- C4: against an aware `now` (the `datetime.now(_tz)` of the configured-zone
run), `within_future_window` accepts an Event iff its start is unparsable or
the parsed start lies within `[now - 1 day, now + FUTURE_DAYS_LIMIT days]` —
in particular a start two days ago is rejected, one 12 hours ago accepted, one
beyond the horizon rejected, and an unparsable start always accepted. -/
theorem within_future_window_iff (lib : DtLib) (tz : Option ℤ) (horizon : ℤ)
    (now : PyDateTime) (ev : Event) (o : ℤ) (hnow : now.off = some o) :
    within_future_window lib tz horizon now ev =
      .ok (windowSpec lib tz horizon now ev) := by
  unfold within_future_window windowSpec
  cases hp : parse_iso_to_local lib tz ev.start_dt with
  | none => rfl
  | some st =>
    obtain ⟨os, hst⟩ := Option.isSome_iff_exists.mp
      (parse_iso_to_local_off lib tz ev.start_dt st hp)
    simp only [pyGe, pyLe, pyAddMin, hst, hnow, pyInstant, Option.getD_some]
    rw [exc_bind_ok]
    cases hd1 : decide (st.wall - os ≥ now.wall + -1440 - o) with
    | true =>
      have hA := of_decide_eq_true hd1
      rw [if_pos rfl]
      congr 1
      apply decide_eq_decide.mpr
      constructor
      · intro hB
        exact ⟨by omega, by omega⟩
      · intro hC
        omega
    | false =>
      have hA := of_decide_eq_false hd1
      rw [if_neg (by simp)]
      show Except.ok false = _
      congr 1
      symm
      rw [decide_eq_false_iff_not]
      intro hC
      omega

/-- C10: with a zone configured, the dedup date part is taken after
converting the parsed start to that zone, so two Events whose normalised
titles agree and whose starts parse to the same instant — however their
offsets were written — get the same identity key and collapse to a single
kept Event. -/
theorem dedupe_same_instant_collapse (lib : DtLib) (z : ℤ) (e1 e2 : Event)
    (s1 s2 : String) (ht1 : e1.title = .str s1) (ht2 : e2.title = .str s2)
    (hts : pyLower (pyStrip s1) = pyLower (pyStrip s2)) (d1 d2 : PyDateTime)
    (hp1 : parse_iso_to_local lib (some z) e1.start_dt = some d1)
    (hp2 : parse_iso_to_local lib (some z) e2.start_dt = some d2)
    (hinst : pyInstant d1 = pyInstant d2) :
    dkey lib (some z) e1 = dkey lib (some z) e2 ∧
      dedupe_events lib (some z) [e1, e2] =
        .ok [if score e2 > score e1 then e2 else e1] := by
  have hz1 := parse_iso_to_local_tz lib z e1.start_dt d1 hp1
  have hz2 := parse_iso_to_local_tz lib z e2.start_dt d2 hp2
  have hwall : d1.wall = d2.wall := by rw [hz1.2, hz2.2, hinst]
  have hk1 : dkey lib (some z) e1 = .ok (pyLower (pyStrip s1), some (dayNumber d1)) := by
    simp [dkey, pyStripLower, ht1, hp1, exc_bind_ok]
  have hk2 : dkey lib (some z) e2 = .ok (pyLower (pyStrip s1), some (dayNumber d1)) := by
    simp [dkey, pyStripLower, ht2, hp2, exc_bind_ok, hts, dayNumber, hwall]
  refine ⟨hk1.trans hk2.symm, ?_⟩
  by_cases hX : score e2 > score e1
  · simp [dedupe_events, dedupeGo, dedupeStep, memB, hk1, hk2, exc_bind_ok, hX, Except.map]
  · simp [dedupe_events, dedupeGo, dedupeStep, memB, hk1, hk2, exc_bind_ok, hX, Except.map]

/-- A successful `Except` bind factors through a successful first stage. -/
theorem exc_bind_eq_ok {α β : Type} {x : Except PyErr α}
    {f : α → Except PyErr β} {v : β} (h : (x >>= f) = .ok v) :
    ∃ a, x = .ok a ∧ f a = .ok v := by
  cases x with
  | ok a => exact ⟨a, rfl, h⟩
  | error e => exact absurd h (by simp [Bind.bind, Except.bind])

/-- A record built from one node carries the truthy `name or ""` the source
gated on: `buildNode` only keeps an event whose title is truthy. -/
theorem buildNode_some_truthy (nl : String → String) (raw : String)
    (node : Json) (ev : Event) (h : buildNode nl raw node = .ok (some ev)) :
    pyTruthy ev.title = true := by
  unfold buildNode at h
  split at h
  · exact absurd h (by simp [pure, Except.pure])
  · obtain ⟨d1, hd1, h⟩ := exc_bind_eq_ok h
    obtain ⟨locp, hlocp, h⟩ := exc_bind_eq_ok h
    split at h
    · rename_i hcond2
      have he : some (buildRecord nl raw node d1 locp) = some ev := by
        simpa [pure, Except.pure] using h
      cases he
      exact hcond2
    · exact absurd h (by simp [pure, Except.pure])

/-- Every record the node loop adds to a truthy-titled accumulator has a
truthy title. -/
theorem buildGo_ok_titles (nl : String → String) (raw : String) :
    ∀ (ns : List Json) (acc evs : List Event),
    (∀ e ∈ acc, pyTruthy e.title = true) → buildGo nl raw ns acc = .ok evs →
    ∀ ev ∈ evs, pyTruthy ev.title = true := by
  intro ns
  induction ns with
  | nil =>
    intro acc evs hacc h
    have : acc = evs := by simpa [buildGo] using h
    rw [← this]
    exact hacc
  | cons n rest ih =>
    intro acc evs hacc h
    unfold buildGo at h
    obtain ⟨r, hr, h⟩ := exc_bind_eq_ok h
    cases r with
    | none => exact ih acc evs hacc h
    | some e0 =>
      refine ih (acc ++ [e0]) evs ?_ h
      intro e he
      rcases List.mem_append.mp he with h1 | h2
      · exact hacc e h1
      · rw [List.mem_singleton.mp h2]
        exact buildNode_some_truthy nl raw n e0 hr

/-- C7: `parse_events_from_jsonld` never returns an Event with an empty
title — a node of type "Event" without a usable (truthy) name yields no
record at all, so every returned record's title is truthy and in particular
not the empty string. -/
theorem parse_events_title_nonempty (nl : String → String) (objs : List Json)
    (raw : String) (evs : List Event)
    (h : parse_events_from_jsonld nl objs raw = .ok evs) :
    ∀ ev ∈ evs, pyTruthy ev.title = true ∧ ev.title ≠ .str "" := by
  intro ev hmem
  have ht := buildGo_ok_titles nl raw (objs.flatMap iterNodes) [] evs
    (by simp) h ev hmem
  refine ⟨ht, ?_⟩
  intro hcontr
  rw [hcontr] at ht
  simp [pyTruthy] at ht

/-- A constant stand-in for `urlparse(..).netloc` used by concrete
instances. -/
def nl0 : String → String := fun _ => ""

/-- The record the C7 witness page produces. -/
def c7ev : Event :=
  { title := .str "Beach Cleanup", start_dt := none, end_dt := none,
    venue := none, address := none, price := none, url := .str "u",
    source := none, lat := none, lon := none, raw_source_url := some "u" }

/-- A one-node page: a titled "Event". -/
def c7objs : List Json :=
  [.obj [("@type", .str "Event"), ("name", .str "Beach Cleanup")]]

/-- Witness for C7: on a concrete page the builder returns exactly one
record, and the theorem yields its truthy, non-empty title. -/
theorem parse_events_title_nonempty_witness :
    parse_events_from_jsonld nl0 c7objs "u" = .ok [c7ev] ∧
      pyTruthy c7ev.title = true ∧ c7ev.title ≠ .str "" :=
  ⟨rfl, parse_events_title_nonempty nl0 c7objs "u" [c7ev] rfl c7ev
    (List.mem_singleton_self c7ev)⟩

/-- A page whose Event node's geo supplies only a latitude. -/
def c2objs : List Json :=
  [.obj [("@type", .str "Event"), ("name", .str "X"),
         ("location", .obj [("geo", .obj [("latitude", .num 32)])])]]

/-- The record the C2 page produces: latitude set, longitude absent. -/
def c2ev : Event :=
  { title := .str "X", start_dt := none, end_dt := none, venue := none,
    address := none, price := none, url := .str "u", source := none,
    lat := some 32, lon := none, raw_source_url := some "u" }

/-- Counterexample to C2: a geo mapping supplying only a (parsable) latitude
yields an Event with exactly one coordinate set — `lat`/`lon` are NOT always
both present or both absent. -/
theorem parse_events_partial_geo :
    parse_events_from_jsonld nl0 c2objs "u" = .ok [c2ev] ∧
      (c2ev.lat).isSome = true ∧ (c2ev.lon).isNone = true :=
  ⟨rfl, rfl, rfl⟩

/-- C2 as amended: a numeric-parse failure of a SUPPLIED coordinate resets
both coordinates to `None` (never a partial pair), and when both coordinates
are supplied the result is both-set or both-`None`; a partial pair can arise
only when exactly one coordinate is supplied. -/
theorem geoParse_spec (g : Json) :
    ((¬ jIsNull (jget g "latitude") = true ∧
        (∃ e, pyFloat (jget g "latitude") = .error e)) ∨
      (¬ jIsNull (jget g "longitude") = true ∧
        (∃ e, pyFloat (jget g "longitude") = .error e)) →
      geoParse g = (none, none)) ∧
    (¬ jIsNull (jget g "latitude") = true ∧ ¬ jIsNull (jget g "longitude") = true →
      ((geoParse g).1 = none ↔ (geoParse g).2 = none)) := by
  cases g with
  | obj kvs =>
    by_cases hla : jIsNull (jget (.obj kvs) "latitude") = true
    · by_cases hlo : jIsNull (jget (.obj kvs) "longitude") = true
      · constructor
        · rintro (⟨hc, _⟩ | ⟨hc, _⟩) <;> exact absurd (by assumption) hc
        · rintro ⟨hc, _⟩; exact absurd hla hc
      · cases hf : pyFloat (jget (.obj kvs) "longitude") with
        | ok q =>
          constructor
          · rintro (⟨hc, _⟩ | ⟨_, e, he⟩)
            · exact absurd hla hc
            · simp at he
          · rintro ⟨hc, _⟩; exact absurd hla hc
        | error e =>
          constructor
          · intro _; simp [geoParse, hla, hlo, hf, exc_bind_ok, exc_bind_error, Except.map]
          · rintro ⟨hc, _⟩; exact absurd hla hc
    · cases hf : pyFloat (jget (.obj kvs) "latitude") with
      | ok q =>
        by_cases hlo : jIsNull (jget (.obj kvs) "longitude") = true
        · constructor
          · rintro (⟨_, e, he⟩ | ⟨hc, _⟩)
            · simp at he
            · exact absurd hlo hc
          · rintro ⟨_, hc⟩; exact absurd hlo hc
        · cases hg : pyFloat (jget (.obj kvs) "longitude") with
          | ok q2 =>
            constructor
            · rintro (⟨_, e, he⟩ | ⟨_, e, he⟩) <;> simp at he
            · intro _
              simp [geoParse, hla, hlo, hf, hg, exc_bind_ok, exc_bind_error, Except.map]
          | error e =>
            constructor
            · intro _
              simp [geoParse, hla, hlo, hf, hg, exc_bind_ok, exc_bind_error, Except.map]
            · intro _
              simp [geoParse, hla, hlo, hf, hg, exc_bind_ok, exc_bind_error, Except.map]
      | error e =>
        constructor
        · intro _
          simp [geoParse, hla, hf, exc_bind_ok, exc_bind_error, Except.map]
        · intro _
          simp [geoParse, hla, hf, exc_bind_ok, exc_bind_error, Except.map]
  | null => exact ⟨by rintro (⟨hc, _⟩ | ⟨hc, _⟩) <;> simp [jget, jIsNull] at hc,
      by rintro ⟨hc, _⟩ <;> simp [jget, jIsNull] at hc⟩
  | bool b => exact ⟨by rintro (⟨hc, _⟩ | ⟨hc, _⟩) <;> simp [jget, jIsNull] at hc,
      by rintro ⟨hc, _⟩ <;> simp [jget, jIsNull] at hc⟩
  | num q => exact ⟨by rintro (⟨hc, _⟩ | ⟨hc, _⟩) <;> simp [jget, jIsNull] at hc,
      by rintro ⟨hc, _⟩ <;> simp [jget, jIsNull] at hc⟩
  | str s => exact ⟨by rintro (⟨hc, _⟩ | ⟨hc, _⟩) <;> simp [jget, jIsNull] at hc,
      by rintro ⟨hc, _⟩ <;> simp [jget, jIsNull] at hc⟩
  | arr xs => exact ⟨by rintro (⟨hc, _⟩ | ⟨hc, _⟩) <;> simp [jget, jIsNull] at hc,
      by rintro ⟨hc, _⟩ <;> simp [jget, jIsNull] at hc⟩

/-- Witness for the amended C2: a supplied but malformed latitude resets both
coordinates. -/
theorem geoParse_spec_witness :
    geoParse (.obj [("latitude", .str "bad"), ("longitude", .num 5)]) =
      (none, none) :=
  (geoParse_spec (.obj [("latitude", .str "bad"), ("longitude", .num 5)])).1
    (Or.inl ⟨by decide, ⟨.valueError, rfl⟩⟩)

/-- A date library that parses nothing (for concrete instances). -/
def lib0 : DtLib := { fromiso := fun _ => none, dateutil := fun _ => none }

/-- A distance oracle returning distance 0 (for concrete instances). -/
def hav0 : HavOracle := fun _ _ _ _ => .ok 0

/-- A configuration with an EMPTY seed list. -/
def cfg0 : Config :=
  { neighborhood := "Pacific Beach", city := "San Diego", centerLat := 32,
    centerLon := -117, radiusMiles := 3, futureDaysLimit := 14,
    maxSeedPages := 6, maxFollowPerSeed := 10, maxEvents := 60,
    sourcePages := [] }

/-- A fixed aware "now" (for concrete instances). -/
def now0 : PyDateTime := { wall := 1000000, off := some (-480) }

/-- Counterexample to C3: with zero configured seeds, `crawl_events` does not
fail fast with an error — it completes normally and returns the empty list. -/
theorem crawl_empty_seeds_completes :
    crawl_events cfg0 (fun _ => none) (fun _ => []) nl0 (fun _ u => u) hav0
      lib0 none now0 = .ok [] := rfl

/-- C3 as amended: when the configured seed list is empty, `crawl_events`
attempts no fetch (the result is the same for every fetch collaborator) and
returns the empty list without error. -/
theorem crawl_empty_seeds (cfg : Config) (fetch : String → Option String)
    (extract : String → List Json) (nl : String → String)
    (uj : String → String → String) (hav : HavOracle) (lib : DtLib)
    (tz : Option ℤ) (now : PyDateTime) (h : cfg.sourcePages = []) :
    crawl_events cfg fetch extract nl uj hav lib tz now = .ok [] := by
  unfold crawl_events
  rw [h]
  simp [crawlGoSeeds, crawlFinalize, pipelineP, pyFilterM, dedupe_events,
    dedupeGo, sort_events, uniformKeys, exc_bind_ok, Except.map, pure,
    Except.pure, List.mapM.loop]

/-- Witness for the amended C3: a configuration with no seeds returns the
empty list even against a fetcher that would return pages. -/
theorem crawl_empty_seeds_witness :
    crawl_events cfg0 (fun _ => some "page") (fun _ => c7objs) nl0
      (fun _ u => u) hav0 lib0 (some (-480)) now0 = .ok [] :=
  crawl_empty_seeds cfg0 (fun _ => some "page") (fun _ => c7objs) nl0
    (fun _ u => u) hav0 lib0 (some (-480)) now0 rfl

/-- A date library recognising exactly the C1 witness timestamp (an aware
datetime at UTC). -/
def lib1 : DtLib :=
  { fromiso := fun s =>
      if s = "2025-09-10T09:00:00+00:00" then some { wall := 1059840, off := some 0 }
      else none,
    dateutil := fun _ => none }

/-- An Event with a parsable start. -/
def evA : Event :=
  { title := .str "a", start_dt := some "2025-09-10T09:00:00+00:00",
    end_dt := none, venue := none, address := none, price := none,
    url := .str "u", source := none }

/-- An Event with no start. -/
def evB : Event :=
  { title := .str "b", start_dt := none, end_dt := none, venue := none,
    address := none, price := none, url := .str "u", source := none }

/-- C1 fails on the code: sorting a list that mixes a parsable start (an
AWARE parsed datetime) with an unparsable one (whose fallback key is the
NAIVE `datetime.max`) raises `TypeError` in the key comparison instead of
succeeding — the sort is not total. -/
theorem sort_events_mixed_raises :
    sort_events lib1 none [evA, evB] = .error .typeError := rfl

instance : Inhabited Event :=
  ⟨{ title := .null, start_dt := none, end_dt := none, venue := none,
     address := none, price := none, url := .null, source := none }⟩

/-- The duplicate-resolution step of the spec: keep the incumbent unless the
newcomer's completeness score is strictly higher. -/
def pickHigher (b e : Event) : Event := if score e > score b then e else b

/-- The Event kept for one identity key, folded over the key's collision group
in input order. -/
def firstMaxScore (e0 : Event) (g : List Event) : Event := g.foldl pickHigher e0

/-- The kept Event of a (nonempty) collision group. -/
def groupKept (g : List Event) : Event :=
  match g with
  | e0 :: g' => firstMaxScore e0 g'
  | [] => default

/-- The collision group of one identity key, in input order. -/
def keyGroup (k : DKey) (tagged : List (DKey × Event)) : List Event :=
  (tagged.filter fun p => p.1 = k).map Prod.snd

/-- First-occurrence de-duplication (accumulator form; the membership test is
the Boolean `contains`, as in the source's `seen` set). -/
def firstDedupAux {α : Type} [DecidableEq α] (acc : List α) : List α → List α
  | [] => acc
  | x :: rest => firstDedupAux (if memB x acc then acc else acc ++ [x]) rest

/-- First-occurrence de-duplication: the distinct elements of a list in the
order each first appears. -/
def firstDedup {α : Type} [DecidableEq α] (l : List α) : List α :=
  firstDedupAux [] l

/-- The Boolean membership test agrees with membership. -/
theorem memB_iff_mem {α : Type} [DecidableEq α] (l : List α) (x : α) :
    memB x l = true ↔ x ∈ l := by
  induction l with
  | nil => simp [memB]
  | cons y rest ih =>
    by_cases hxy : x = y
    · simp [memB, hxy]
    · simp [memB, hxy, ih]

/-- Membership in the accumulator form of first-occurrence dedup. -/
theorem mem_firstDedupAux {α : Type} [DecidableEq α] (l : List α) :
    ∀ (acc : List α) (x : α), x ∈ firstDedupAux acc l ↔ x ∈ acc ∨ x ∈ l := by
  induction l with
  | nil => intro acc x; simp [firstDedupAux]
  | cons a rest ih =>
    intro acc x
    by_cases ha : memB a acc = true
    · rw [firstDedupAux, if_pos ha, ih]
      have ham := (memB_iff_mem acc a).mp ha
      constructor
      · rintro (h | h)
        · exact Or.inl h
        · exact Or.inr (List.mem_cons_of_mem a h)
      · rintro (h | h)
        · exact Or.inl h
        · rcases List.mem_cons.mp h with h | h
          · exact Or.inl (h ▸ ham)
          · exact Or.inr h
    · rw [firstDedupAux, if_neg ha, ih]
      simp only [List.mem_append, List.mem_singleton, List.mem_cons]
      tauto

/-- Appending one element to the input of first-occurrence dedup appends it to
the output iff it is new. -/
theorem firstDedupAux_append_one {α : Type} [DecidableEq α] (l : List α) :
    ∀ (acc : List α) (k : α),
    firstDedupAux acc (l ++ [k]) =
      (if memB k (firstDedupAux acc l) then firstDedupAux acc l
       else firstDedupAux acc l ++ [k]) := by
  induction l with
  | nil => intro acc k; simp [firstDedupAux]
  | cons a rest ih =>
    intro acc k
    rw [List.cons_append, firstDedupAux, firstDedupAux, ih]

/-- First-occurrence dedup yields distinct elements. -/
theorem nodup_firstDedupAux {α : Type} [DecidableEq α] (l : List α) :
    ∀ (acc : List α), acc.Nodup → (firstDedupAux acc l).Nodup := by
  induction l with
  | nil => intro acc h; exact h
  | cons a rest ih =>
    intro acc hacc
    by_cases ha : memB a acc = true
    · rw [firstDedupAux, if_pos ha]; exact ih acc hacc
    · rw [firstDedupAux, if_neg ha]
      have ham : a ∉ acc := fun hm => ha ((memB_iff_mem acc a).mpr hm)
      exact ih (acc ++ [a]) (by simp [List.nodup_append, hacc, ham])

/-- First-occurrence dedup of a list disjoint from the accumulator appends
it. -/
theorem firstDedupAux_of_disjoint {α : Type} [DecidableEq α] (l : List α) :
    ∀ acc : List α, l.Nodup → (∀ x ∈ l, x ∉ acc) →
    firstDedupAux acc l = acc ++ l := by
  induction l with
  | nil => intro acc _ _; simp [firstDedupAux]
  | cons a rest ih =>
    intro acc hnd hdisj
    have ha : memB a acc ≠ true := by
      intro hc
      exact hdisj a (List.mem_cons_self a rest) ((memB_iff_mem acc a).mp hc)
    rw [firstDedupAux, if_neg ha,
      ih (acc ++ [a]) (List.nodup_cons.mp hnd).2 ?_]
    · simp
    · intro x hx
      simp only [List.mem_append, List.mem_singleton]
      rintro (hc | hc)
      · exact hdisj x (List.mem_cons_of_mem a hx) hc
      · exact (List.nodup_cons.mp hnd).1 (hc ▸ hx)

/-- A list of distinct elements first-occurrence-dedups to itself. -/
theorem firstDedup_of_nodup {α : Type} [DecidableEq α] (l : List α)
    (h : l.Nodup) : firstDedup l = l := by
  unfold firstDedup
  rw [firstDedupAux_of_disjoint l [] h (by simp)]
  simp

/-- Events tagged with their dedup keys, in order (the key computations the
`dedupe_events` loop performs, surfaced as data). -/
def tagEvents (lib : DtLib) (tz : Option ℤ) :
    List Event → Except PyErr (List (DKey × Event))
  | [] => .ok []
  | ev :: rest => do
    let k ← dkey lib tz ev
    let t ← tagEvents lib tz rest
    pure ((k, ev) :: t)

/-- One fold step of the `seen` dict, as a function of a tagged event. -/
def foldStep (s : List (DKey × Event)) (p : DKey × Event) : List (DKey × Event) :=
  dedupeStep s p.1 p.2

/-- An unseen key has an empty collision group. -/
theorem keyGroup_eq_nil (k : DKey) (l : List (DKey × Event))
    (h : k ∉ l.map Prod.fst) : keyGroup k l = [] := by
  unfold keyGroup
  rw [List.filter_eq_nil_iff.mpr, List.map_nil]
  intro p hp hk
  exact h (List.mem_map.mpr ⟨p, hp, by simpa using hk⟩)

/-- A seen key has a nonempty collision group. -/
theorem keyGroup_ne_nil (k : DKey) (l : List (DKey × Event))
    (h : k ∈ l.map Prod.fst) : keyGroup k l ≠ [] := by
  unfold keyGroup
  obtain ⟨p, hp, hk⟩ := List.mem_map.mp h
  intro hcontr
  have : p ∈ l.filter fun q => q.1 = k :=
    List.mem_filter.mpr ⟨hp, by simpa using hk⟩
  rw [List.map_eq_nil_iff.mp hcontr] at this
  exact absurd this (List.not_mem_nil p)

/-- Appending one tagged event extends exactly its key's group. -/
theorem keyGroup_append_one (k' k : DKey) (e : Event) (l : List (DKey × Event)) :
    keyGroup k' (l ++ [(k, e)]) =
      keyGroup k' l ++ (if k = k' then [e] else []) := by
  unfold keyGroup
  rw [List.filter_append, List.map_append]
  congr 1
  by_cases hk : k = k' <;> simp [hk]

/-- The kept Event of a group extended by one newcomer. -/
theorem groupKept_append_one (g : List Event) (e : Event) (h : g ≠ []) :
    groupKept (g ++ [e]) = pickHigher (groupKept g) e := by
  cases g with
  | nil => exact absurd rfl h
  | cons e0 g' => simp [groupKept, firstMaxScore, List.foldl_append]

/-- Membership in first-occurrence dedup is membership. -/
theorem mem_firstDedup {α : Type} [DecidableEq α] (l : List α) (x : α) :
    x ∈ firstDedup l ↔ x ∈ l := by
  unfold firstDedup
  rw [mem_firstDedupAux]
  simp

/-- The `seen` dict after folding a tagged input: one entry per distinct key
in first-occurrence order, carrying the score-fold of that key's collision
group. -/
theorem foldA_char (tagged : List (DKey × Event)) :
    tagged.foldl foldStep [] =
      (firstDedup (tagged.map Prod.fst)).map
        (fun k => (k, groupKept (keyGroup k tagged))) := by
  induction tagged using List.reverseRecOn with
  | nil => simp [firstDedup, firstDedupAux]
  | append_singleton l p ih =>
    obtain ⟨k, e⟩ := p
    rw [List.foldl_append, List.foldl_cons, List.foldl_nil, ih]
    have hmapfst : ((l ++ [(k, e)]).map Prod.fst) = l.map Prod.fst ++ [k] := by
      simp
    rw [hmapfst]
    unfold firstDedup
    rw [firstDedupAux_append_one]
    have hfst : ((firstDedupAux [] (l.map Prod.fst)).map
        (fun k' => (k', groupKept (keyGroup k' l)))).map Prod.fst =
        firstDedupAux [] (l.map Prod.fst) := by
      rw [List.map_map]
      exact List.map_id'' (fun _ => rfl) _
    have hsame : ∀ k' ∈ firstDedupAux [] (l.map Prod.fst), k' ≠ k →
        groupKept (keyGroup k' (l ++ [(k, e)])) = groupKept (keyGroup k' l) := by
      intro k' _ hkk
      rw [keyGroup_append_one, if_neg (fun hc => hkk hc.symm), List.append_nil]
    by_cases hk : memB k (firstDedupAux [] (l.map Prod.fst)) = true
    · rw [if_pos hk]
      have hkmem : k ∈ l.map Prod.fst := by
        have hmm := (memB_iff_mem _ k).mp hk
        exact (mem_firstDedup (l.map Prod.fst) k).mp hmm
      have hgne : keyGroup k l ≠ [] := keyGroup_ne_nil k l hkmem
      show dedupeStep _ k e = _
      unfold dedupeStep
      rw [hfst, if_pos hk]
      rw [List.map_map]
      apply List.map_congr_left
      intro k' hk'
      by_cases hkk : k' = k
      · subst hkk
        have hgroup : keyGroup k' (l ++ [(k', e)]) = keyGroup k' l ++ [e] := by
          rw [keyGroup_append_one, if_pos rfl]
        rw [Function.comp_apply, hgroup, groupKept_append_one _ _ hgne]
        by_cases hP : score e > score (groupKept (keyGroup k' l)) <;>
          simp [pickHigher, hP]
      · rw [Function.comp_apply, hsame k' hk' hkk]
        simp [hkk]
    · rw [if_neg hk]
      have hknot : k ∉ l.map Prod.fst := by
        intro hc
        exact hk ((memB_iff_mem _ k).mpr
          ((mem_firstDedup (l.map Prod.fst) k).mpr hc))
      have hgnil : keyGroup k l = [] := keyGroup_eq_nil k l hknot
      show dedupeStep _ k e = _
      unfold dedupeStep
      rw [hfst, if_neg hk]
      rw [List.map_append]
      congr 1
      · apply List.map_congr_left
        intro k' hk'
        have hkk : k' ≠ k := by
          intro hc
          subst hc
          exact hk ((memB_iff_mem _ k').mpr hk')
        rw [hsame k' hk' hkk]
      · rw [List.map_singleton]
        have hgone : keyGroup k (l ++ [(k, e)]) = [e] := by
          rw [keyGroup_append_one, if_pos rfl, hgnil, List.nil_append]
        rw [hgone]
        rfl

/-- When every key computes, the dedup loop is the pure fold of the tagged
input over the `seen` dict. -/
theorem dedupeGo_eq_fold (lib : DtLib) (tz : Option ℤ) :
    ∀ (evs : List Event) (tagged seen : List (DKey × Event)),
    tagEvents lib tz evs = .ok tagged →
    dedupeGo lib tz evs seen = .ok (tagged.foldl foldStep seen) := by
  intro evs
  induction evs with
  | nil =>
    intro tagged seen h
    have : ([] : List (DKey × Event)) = tagged := by simpa [tagEvents] using h
    rw [← this]
    rfl
  | cons ev rest ih =>
    intro tagged seen h
    unfold tagEvents at h
    obtain ⟨k, hk, h⟩ := exc_bind_eq_ok h
    obtain ⟨t, ht, h⟩ := exc_bind_eq_ok h
    have htag : (k, ev) :: t = tagged := by simpa [pure, Except.pure] using h
    rw [← htag]
    unfold dedupeGo
    rw [hk, exc_bind_ok, ih t (dedupeStep seen k ev) ht]
    rfl

/-- The folded winner's score dominates the seed's. -/
theorem score_le_firstMaxScore : ∀ (g : List Event) (e0 : Event),
    score e0 ≤ score (firstMaxScore e0 g) := by
  intro g
  induction g with
  | nil => intro e0; exact le_refl _
  | cons x g' ih =>
    intro e0
    have h1 : score e0 ≤ score (pickHigher e0 x) := by
      unfold pickHigher
      by_cases hx : score x > score e0
      · rw [if_pos hx]; omega
      · rw [if_neg hx]
    calc score e0 ≤ score (pickHigher e0 x) := h1
      _ ≤ score (firstMaxScore (pickHigher e0 x) g') := ih (pickHigher e0 x)

/-- The fold keeps the FIRST element attaining the maximal score: the group
splits around the kept element, with strictly smaller scores before it and no
larger score after it. -/
theorem firstMaxScore_split : ∀ (g : List Event) (e0 : Event),
    ∃ l1 l2, e0 :: g = l1 ++ firstMaxScore e0 g :: l2 ∧
      (∀ e ∈ l1, score e < score (firstMaxScore e0 g)) ∧
      (∀ e ∈ l2, score e ≤ score (firstMaxScore e0 g)) := by
  intro g
  induction g with
  | nil =>
    intro e0
    exact ⟨[], [], rfl, by simp, by simp⟩
  | cons x g' ih =>
    intro e0
    have hfold : firstMaxScore e0 (x :: g') = firstMaxScore (pickHigher e0 x) g' := by
      unfold firstMaxScore
      rw [List.foldl_cons]
    by_cases hx : score x > score e0
    · have hpick : pickHigher e0 x = x := by unfold pickHigher; rw [if_pos hx]
      obtain ⟨l1, l2, heq, hl1, hl2⟩ := ih x
      rw [hfold, hpick]
      refine ⟨e0 :: l1, l2, ?_, ?_, hl2⟩
      · rw [List.cons_append, ← heq]
      · intro e he
        rcases List.mem_cons.mp he with he | he
        · subst he
          have := score_le_firstMaxScore g' x
          omega
        · exact hl1 e he
    · have hpick : pickHigher e0 x = e0 := by unfold pickHigher; rw [if_neg hx]
      obtain ⟨l1, l2, heq, hl1, hl2⟩ := ih e0
      rw [hfold, hpick]
      cases l1 with
      | nil =>
        simp only [List.nil_append] at heq
        have hm : firstMaxScore e0 g' = e0 := (List.cons.injEq _ _ _ _ ▸ heq).1.symm
        refine ⟨[], x :: g', by rw [List.nil_append, hm], by simp, ?_⟩
        intro e he
        rcases List.mem_cons.mp he with he | he
        · subst he; rw [hm]; omega
        · have hg' : g' = l2 := (List.cons.injEq _ _ _ _ ▸ heq).2
          exact hl2 e (hg' ▸ he)
      | cons a l1' =>
        rw [List.cons_append] at heq
        have ha : a = e0 := ((List.cons.injEq _ _ _ _).mp heq).1.symm
        have hg' : g' = l1' ++ firstMaxScore e0 g' :: l2 :=
          ((List.cons.injEq _ _ _ _).mp heq).2
        subst ha
        refine ⟨a :: x :: l1', l2, ?_, ?_, hl2⟩
        · rw [List.cons_append, List.cons_append, ← hg']
        · intro e he
          have he0lt : score a < score (firstMaxScore a g') :=
            hl1 a (List.mem_cons_self a l1')
          rcases List.mem_cons.mp he with he | he
          · subst he; exact he0lt
          · rcases List.mem_cons.mp he with he | he
            · subst he; omega
            · exact hl1 e (List.mem_cons_of_mem a he)

/-- C6 as amended: when every identity key computes (string titles),
`dedupe_events` returns exactly one Event per distinct key, in the order keys
first appear; the kept Event of each key is the FIRST member of its collision
group attaining the maximal TRUTHY-field completeness score (strictly smaller
scores before it, none larger after it) — Python truthiness, under which a
0.0 coordinate counts as empty. -/
theorem dedupe_events_keeps_first_max (lib : DtLib) (tz : Option ℤ)
    (evs : List Event) (tagged : List (DKey × Event))
    (htag : tagEvents lib tz evs = .ok tagged) :
    dedupe_events lib tz evs =
      .ok ((firstDedup (tagged.map Prod.fst)).map
        (fun k => groupKept (keyGroup k tagged))) ∧
    ∀ k ∈ firstDedup (tagged.map Prod.fst),
      ∃ l1 l2, keyGroup k tagged = l1 ++ groupKept (keyGroup k tagged) :: l2 ∧
        (∀ e ∈ l1, score e < score (groupKept (keyGroup k tagged))) ∧
        (∀ e ∈ l2, score e ≤ score (groupKept (keyGroup k tagged))) := by
  constructor
  · unfold dedupe_events
    rw [dedupeGo_eq_fold lib tz evs tagged [] htag, foldA_char]
    simp [Except.map, List.map_map, Function.comp]
  · intro k hk
    have hkmem : k ∈ tagged.map Prod.fst := (mem_firstDedup _ k).mp hk
    have hne : keyGroup k tagged ≠ [] := keyGroup_ne_nil k tagged hkmem
    cases hg : keyGroup k tagged with
    | nil => exact absurd hg hne
    | cons e0 g' =>
      have : groupKept (e0 :: g') = firstMaxScore e0 g' := rfl
      rw [this]
      obtain ⟨l1, l2, heq, hl1, hl2⟩ := firstMaxScore_split g' e0
      exact ⟨l1, l2, heq, hl1, hl2⟩

/-- The completeness score as the claim reads it: a count of PRESENT fields
(a coordinate counts when it is set, zero or not). -/
def specScore (e : Event) : ℕ :=
  [truthyOptStr e.venue, truthyOptStr e.address, truthyOptStr e.price,
   pyTruthy e.url, truthyOptStr e.source, e.lat.isSome, e.lon.isSome,
   truthyOptStr e.end_dt].count true

/-- First-seen Event of the C6 key: coordinates (0.0, 10.0) and nothing
else. -/
def c6e1 : Event :=
  { title := .str "t", start_dt := none, end_dt := none, venue := none,
    address := none, price := none, url := .null, source := none,
    lat := some 0, lon := some 10 }

/-- Later Event of the C6 key: venue and address set. -/
def c6e2 : Event :=
  { title := .str "t", start_dt := none, end_dt := none, venue := some "v",
    address := some "a", price := none, url := .null, source := none }

/-- Counterexample to C6: both Events carry two PRESENT fields (the claim's
"non-empty" count ties, so the claim keeps the first-seen `c6e1`), yet the
code scores the 0.0 latitude as empty (truthiness) and keeps `c6e2`. -/
theorem dedupe_truthy_score_counterexample :
    dedupe_events lib0 none [c6e1, c6e2] = .ok [c6e2] ∧
      specScore c6e1 = specScore c6e2 ∧ score c6e1 < score c6e2 ∧
      c6e1.venue ≠ c6e2.venue :=
  ⟨rfl, rfl, by decide, by decide⟩

/-- The keys the C6 witness input computes. -/
def c6tagged : List (DKey × Event) :=
  [(("t", none), c6e1), (("t", none), c6e2)]

/-- Witness for the amended C6, at the concrete two-event input. -/
theorem dedupe_events_keeps_first_max_witness :
    dedupe_events lib0 none [c6e1, c6e2] =
      .ok ((firstDedup (c6tagged.map Prod.fst)).map
        (fun k => groupKept (keyGroup k c6tagged))) :=
  (dedupe_events_keeps_first_max lib0 none [c6e1, c6e2] c6tagged rfl).1

/-- Witness for C4: at a concrete aware `now`, a start inside the window is
accepted and the decision is exactly the spec form. -/
theorem within_future_window_iff_witness :
    within_future_window lib1 none 14 { wall := 1059900, off := some 0 } evA =
      .ok (windowSpec lib1 none 14 { wall := 1059900, off := some 0 } evA) ∧
      windowSpec lib1 none 14 { wall := 1059900, off := some 0 } evA = true :=
  ⟨within_future_window_iff lib1 none 14 { wall := 1059900, off := some 0 }
    evA 0 rfl, by decide⟩

/-- A date library for the C10 witness: the same instant written at +02:00 and
at +00:00. -/
def lib10 : DtLib :=
  { fromiso := fun s =>
      if s = "2025-09-11T01:00:00+02:00" then some { wall := 1120, off := some 120 }
      else if s = "2025-09-10T23:00:00+00:00" then some { wall := 1000, off := some 0 }
      else none,
    dateutil := fun _ => none }

/-- C10 witness Event at +02:00 (title needs normalising). -/
def e10a : Event :=
  { title := .str "T ", start_dt := some "2025-09-11T01:00:00+02:00",
    end_dt := none, venue := none, address := none, price := none,
    url := .null, source := none }

/-- C10 witness Event at +00:00, same instant. -/
def e10b : Event :=
  { title := .str "t", start_dt := some "2025-09-10T23:00:00+00:00",
    end_dt := none, venue := some "v", address := none, price := none,
    url := .null, source := none }

/-- Witness for C10: the two spellings of one instant share a key and
collapse. -/
theorem dedupe_same_instant_collapse_witness :
    dkey lib10 (some 60) e10a = dkey lib10 (some 60) e10b ∧
      dedupe_events lib10 (some 60) [e10a, e10b] =
        .ok [if score e10b > score e10a then e10b else e10a] :=
  dedupe_same_instant_collapse lib10 60 e10a e10b "T " "t" rfl rfl rfl
    { wall := 1060, off := some 60 } { wall := 1060, off := some 60 } rfl rfl rfl

/-- The first-occurrence dedup accumulator is a prefix of its result. -/
theorem firstDedupAux_prefix {α : Type} [DecidableEq α] (l : List α) :
    ∀ acc : List α, ∃ t, firstDedupAux acc l = acc ++ t := by
  induction l with
  | nil => intro acc; exact ⟨[], by simp [firstDedupAux]⟩
  | cons x rest ih =>
    intro acc
    by_cases hx : memB x acc = true
    · rw [firstDedupAux, if_pos hx]
      exact ih acc
    · rw [firstDedupAux, if_neg hx]
      obtain ⟨t, ht⟩ := ih (acc ++ [x])
      exact ⟨x :: t, by rw [ht, List.append_assoc, List.singleton_append]⟩

/-- The de-dup/limit loop of link discovery is first-occurrence dedup
truncated at the limit, for any positive limit (running invariant: the
accumulator is duplicate-free and still below the limit). -/
theorem dedupLimitGo_char (limit : ℕ) : ∀ (l acc : List String),
    acc.Nodup → acc.length < limit →
    dedupLimitGo limit l acc = (firstDedupAux acc l).take limit := by
  intro l
  induction l with
  | nil =>
    intro acc hnd hlt
    rw [dedupLimitGo, firstDedupAux, List.take_of_length_le (le_of_lt hlt)]
  | cons u rest ih =>
    intro acc hnd hlt
    by_cases hu : memB u acc = true
    · rw [dedupLimitGo, firstDedupAux, if_pos hu,
        if_neg (by omega : ¬ limit ≤ acc.length)]
      exact ih acc hnd hlt
    · rw [dedupLimitGo, firstDedupAux, if_neg hu]
      by_cases hcap : limit ≤ (acc ++ [u]).length
      · rw [if_pos hcap]
        have hlen : (acc ++ [u]).length = limit := by
          simp only [List.length_append, List.length_singleton] at hcap ⊢
          omega
        obtain ⟨t, ht⟩ := firstDedupAux_prefix rest (acc ++ [u])
        rw [ht, List.take_left' hlen]
      · rw [if_neg hcap]
        have hnd' : (acc ++ [u]).Nodup := by
          have hum : u ∉ acc := fun hm => hu ((memB_iff_mem acc u).mpr hm)
          simp [List.nodup_append, hnd, hum]
        have hlt' : (acc ++ [u]).length < limit := by
          simp only [List.length_append, List.length_singleton] at hcap ⊢
          omega
        exact ih (acc ++ [u]) hnd' hlt'

/-- C8 as amended: for a positive limit, when the collection phase returns
normally, `discover_event_links_from_jsonld` returns the first-occurrence
de-duplication of the collected links truncated at the limit — at most
`limit` URLs, duplicate-free, in order of first appearance, every one a
collected candidate. -/
theorem discover_links_spec (uj : String → String → String) (objs : List Json)
    (base : String) (limit : ℕ) (ls : List String)
    (hcol : collectLinks uj objs base = .ok ls) (hlim : 1 ≤ limit) :
    discover_event_links_from_jsonld uj objs base limit =
      .ok ((firstDedup ls).take limit) ∧
      ((firstDedup ls).take limit).Nodup ∧
      ((firstDedup ls).take limit).length ≤ limit ∧
      ∀ u ∈ (firstDedup ls).take limit, u ∈ ls := by
  refine ⟨?_, ?_, ?_, ?_⟩
  · unfold discover_event_links_from_jsonld
    rw [hcol]
    show Except.ok (dedupLimitGo limit ls []) = _
    rw [dedupLimitGo_char limit ls [] List.nodup_nil (by simpa using hlim)]
    rfl
  · exact ((List.take_sublist limit (firstDedup ls)).nodup
      (nodup_firstDedupAux ls [] List.nodup_nil))
  · exact List.length_take_le limit (firstDedup ls)
  · intro u hu
    exact (mem_firstDedup ls u).mp (List.take_subset limit (firstDedup ls) hu)

/-- The identity join for concrete link instances. -/
def uj0 : String → String → String := fun _ u => u

/-- A one-ItemList page with one item URL. -/
def c8objs : List Json :=
  [.obj [("@type", .str "ItemList"),
         ("itemListElement", .arr [.obj [("url", .str "e1")]])]]

/-- Counterexample to C8: with `limit = 0` the loop appends the first fresh
link BEFORE checking the cap, returning one URL — more than the limit. -/
theorem discover_limit_zero_counterexample :
    discover_event_links_from_jsonld uj0 c8objs "base" 0 = .ok ["e1"] ∧
      ¬ (["e1"].length ≤ 0) :=
  ⟨rfl, by decide⟩

/-- Witness for the amended C8 at a concrete page and positive limit. -/
theorem discover_links_spec_witness :
    discover_event_links_from_jsonld uj0 c8objs "base" 2 =
      .ok ((firstDedup ["e1"]).take 2) :=
  (discover_links_spec uj0 c8objs "base" 2 ["e1"] rfl (by decide)).1

instance (lib : DtLib) (tz : Option ℤ) : IsTotal Event (evLe lib tz) := by
  constructor
  intro a b
  unfold evLe
  rcases lt_trichotomy (keyMeasure (sortKeyPure lib tz a))
    (keyMeasure (sortKeyPure lib tz b)) with h | h | h
  · exact Or.inl (Or.inl h)
  · rcases le_total (sortKeyPure lib tz a).2 (sortKeyPure lib tz b).2 with h2 | h2
    · exact Or.inl (Or.inr ⟨h, h2⟩)
    · exact Or.inr (Or.inr ⟨h.symm, h2⟩)
  · exact Or.inr (Or.inl h)

instance (lib : DtLib) (tz : Option ℤ) : IsTrans Event (evLe lib tz) := by
  constructor
  intro a b c hab hbc
  unfold evLe at *
  rcases hab with h1 | ⟨h1, h1'⟩ <;> rcases hbc with h2 | ⟨h2, h2'⟩
  · exact Or.inl (h1.trans h2)
  · exact Or.inl (h2 ▸ h1)
  · exact Or.inl (h1 ▸ h2)
  · exact Or.inr ⟨h1.trans h2, h1'.trans h2'⟩

/-- Every survivor of the filter comprehension came from the input and passed
the test. -/
theorem pyFilterM_sub_true (f : Event → Except PyErr Bool) :
    ∀ (l out : List Event), pyFilterM f l = .ok out →
    ∀ y ∈ out, y ∈ l ∧ f y = .ok true := by
  intro l
  induction l with
  | nil =>
    intro out h y hy
    have : ([] : List Event) = out := by simpa [pyFilterM] using h
    rw [← this] at hy
    exact absurd hy (List.not_mem_nil y)
  | cons x xs ih =>
    intro out h y hy
    unfold pyFilterM at h
    obtain ⟨b, hb, h⟩ := exc_bind_eq_ok h
    obtain ⟨rest, hrest, h⟩ := exc_bind_eq_ok h
    have hout : (if b then x :: rest else rest) = out := by
      simpa [pure, Except.pure] using h
    cases b with
    | true =>
      rw [← hout, if_pos rfl] at hy
      rcases List.mem_cons.mp hy with hy | hy
      · subst hy
        exact ⟨List.mem_cons_self y xs, hb⟩
      · obtain ⟨hmem, hf⟩ := ih rest hrest y hy
        exact ⟨List.mem_cons_of_mem x hmem, hf⟩
    | false =>
      rw [← hout, if_neg (by simp)] at hy
      obtain ⟨hmem, hf⟩ := ih rest hrest y hy
      exact ⟨List.mem_cons_of_mem x hmem, hf⟩

/-- A list every element of which passes the test filters to itself. -/
theorem pyFilterM_all_true (f : Event → Except PyErr Bool) :
    ∀ l : List Event, (∀ y ∈ l, f y = .ok true) → pyFilterM f l = .ok l := by
  intro l
  induction l with
  | nil => intro _; rfl
  | cons x xs ih =>
    intro h
    unfold pyFilterM
    rw [h x (List.mem_cons_self x xs), exc_bind_ok,
      ih (fun y hy => h y (List.mem_cons_of_mem x hy)), exc_bind_ok]
    rfl

/-- Each tagged pair is an input event with its own computed key. -/
theorem tagEvents_mem (lib : DtLib) (tz : Option ℤ) :
    ∀ (ws : List Event) (tg : List (DKey × Event)),
    tagEvents lib tz ws = .ok tg →
    ∀ p ∈ tg, dkey lib tz p.2 = .ok p.1 ∧ p.2 ∈ ws := by
  intro ws
  induction ws with
  | nil =>
    intro tg h p hp
    have : ([] : List (DKey × Event)) = tg := by simpa [tagEvents] using h
    rw [← this] at hp
    exact absurd hp (List.not_mem_nil p)
  | cons ev rest ih =>
    intro tg h p hp
    unfold tagEvents at h
    obtain ⟨k, hk, h⟩ := exc_bind_eq_ok h
    obtain ⟨t, ht, h⟩ := exc_bind_eq_ok h
    have htg : (k, ev) :: t = tg := by simpa [pure, Except.pure] using h
    rw [← htg] at hp
    rcases List.mem_cons.mp hp with hp | hp
    · subst hp
      exact ⟨hk, List.mem_cons_self ev rest⟩
    · obtain ⟨hd, hmem⟩ := ih t ht p hp
      exact ⟨hd, List.mem_cons_of_mem ev hmem⟩

/-- The tagged list projects back to the input events. -/
theorem tagEvents_snd (lib : DtLib) (tz : Option ℤ) :
    ∀ (ws : List Event) (tg : List (DKey × Event)),
    tagEvents lib tz ws = .ok tg → tg.map Prod.snd = ws := by
  intro ws
  induction ws with
  | nil =>
    intro tg h
    have : ([] : List (DKey × Event)) = tg := by simpa [tagEvents] using h
    rw [← this]
    rfl
  | cons ev rest ih =>
    intro tg h
    unfold tagEvents at h
    obtain ⟨k, hk, h⟩ := exc_bind_eq_ok h
    obtain ⟨t, ht, h⟩ := exc_bind_eq_ok h
    have htg : (k, ev) :: t = tg := by simpa [pure, Except.pure] using h
    rw [← htg, List.map_cons, ih t ht]

/-- Tagging succeeds whenever every key computes. -/
theorem tagEvents_exists (lib : DtLib) (tz : Option ℤ) :
    ∀ ws : List Event, (∀ y ∈ ws, ∃ k, dkey lib tz y = .ok k) →
    ∃ tg, tagEvents lib tz ws = .ok tg := by
  intro ws
  induction ws with
  | nil => intro _; exact ⟨[], rfl⟩
  | cons ev rest ih =>
    intro h
    obtain ⟨k, hk⟩ := h ev (List.mem_cons_self ev rest)
    obtain ⟨t, ht⟩ := ih (fun y hy => h y (List.mem_cons_of_mem ev hy))
    refine ⟨(k, ev) :: t, ?_⟩
    unfold tagEvents
    rw [hk, exc_bind_ok, ht, exc_bind_ok]
    rfl

/-- A successful dedup run has all its keys computable. -/
theorem dedupeGo_ok_tagged (lib : DtLib) (tz : Option ℤ) :
    ∀ (ws : List Event) (seen out : List (DKey × Event)),
    dedupeGo lib tz ws seen = .ok out →
    ∃ tg, tagEvents lib tz ws = .ok tg := by
  intro ws
  induction ws with
  | nil => intro seen out _; exact ⟨[], rfl⟩
  | cons ev rest ih =>
    intro seen out h
    unfold dedupeGo at h
    obtain ⟨k, hk, h⟩ := exc_bind_eq_ok h
    obtain ⟨t, ht⟩ := ih (dedupeStep seen k ev) out h
    refine ⟨(k, ev) :: t, ?_⟩
    unfold tagEvents
    rw [hk, exc_bind_ok, ht, exc_bind_ok]
    rfl

/-- The kept Event of a nonempty group is a member of it. -/
theorem groupKept_mem (g : List Event) (h : g ≠ []) : groupKept g ∈ g := by
  cases g with
  | nil => exact absurd rfl h
  | cons e0 g' =>
    obtain ⟨l1, l2, heq, _, _⟩ := firstMaxScore_split g' e0
    have : groupKept (e0 :: g') = firstMaxScore e0 g' := rfl
    rw [this, heq]
    exact List.mem_append_right l1 (List.mem_cons_self _ l2)

/-- A member of a key's collision group is tagged with that key. -/
theorem keyGroup_mem (k : DKey) (tg : List (DKey × Event)) (v : Event)
    (h : v ∈ keyGroup k tg) : (k, v) ∈ tg := by
  unfold keyGroup at h
  obtain ⟨p, hp, hv⟩ := List.mem_map.mp h
  have hf := List.mem_filter.mp hp
  have hk : p.1 = k := by simpa using hf.2
  have : p = (k, v) := by
    obtain ⟨p1, p2⟩ := p
    simp only at hk hv
    rw [hk, hv]
  exact this ▸ hf.1

/-- Folding tagged events whose keys are fresh and distinct appends them
verbatim. -/
theorem foldStep_of_disjoint :
    ∀ (tg seen : List (DKey × Event)), (tg.map Prod.fst).Nodup →
    (∀ k ∈ tg.map Prod.fst, k ∉ seen.map Prod.fst) →
    tg.foldl foldStep seen = seen ++ tg := by
  intro tg
  induction tg with
  | nil => intro seen _ _; simp
  | cons p rest ih =>
    intro seen hnd hdisj
    obtain ⟨k, e⟩ := p
    have hk : k ∉ seen.map Prod.fst :=
      hdisj k (by simp)
    have hstep : foldStep seen (k, e) = seen ++ [(k, e)] := by
      unfold foldStep dedupeStep
      rw [if_neg (fun hc => hk ((memB_iff_mem _ k).mp hc))]
    have hnd' : (k :: rest.map Prod.fst).Nodup := by simpa using hnd
    rw [List.foldl_cons, hstep,
      ih (seen ++ [(k, e)]) (List.nodup_cons.mp hnd').2 ?_]
    · rw [List.append_assoc, List.singleton_append]
    · intro k' hk'
      simp only [List.map_append, List.map_singleton, List.mem_append,
        List.mem_singleton]
      rintro (hc | hc)
      · exact hdisj k' (by simp [hk']) hc
      · exact (List.nodup_cons.mp hnd').1 (hc ▸ hk')

/-- Dedup of a list whose keys all compute and are pairwise distinct returns
it unchanged. -/
theorem dedupe_of_fresh (lib : DtLib) (tz : Option ℤ) (ws : List Event)
    (tg : List (DKey × Event)) (htag : tagEvents lib tz ws = .ok tg)
    (hnd : (tg.map Prod.fst).Nodup) :
    dedupe_events lib tz ws = .ok ws := by
  unfold dedupe_events
  rw [dedupeGo_eq_fold lib tz ws tg [] htag,
    foldStep_of_disjoint tg [] hnd (by simp), List.nil_append]
  rw [show (Except.ok tg : Except PyErr (List (DKey × Event))).map
    (List.map Prod.snd) = .ok (tg.map Prod.snd) from rfl]
  rw [tagEvents_snd lib tz ws tg htag]

/-- A successful sort key is the pure key of a string-titled event. -/
theorem sortKeyM_ok (lib : DtLib) (tz : Option ℤ) (y : Event)
    (k : PyDateTime × String) (h : sortKeyM lib tz y = .ok k) :
    k = sortKeyPure lib tz y ∧ ∃ s, y.title = .str s := by
  unfold sortKeyM at h
  cases hy : y.title with
  | str s =>
    rw [hy] at h
    have : k = ((parse_iso_to_local lib tz y.start_dt).getD datetimeMax, pyLower s) := by
      have := h.symm
      injection this
    refine ⟨?_, s, rfl⟩
    rw [this]
    unfold sortKeyPure
    rw [hy]
  | null => rw [hy] at h; cases h
  | bool b => rw [hy] at h; cases h
  | num q => rw [hy] at h; cases h
  | arr xs => rw [hy] at h; cases h
  | obj kvs => rw [hy] at h; cases h

/-- Computing sort keys over string-titled events succeeds with the pure
keys. -/
theorem mapM_sortKey_of_titles (lib : DtLib) (tz : Option ℤ) :
    ∀ l : List Event, (∀ y ∈ l, ∃ s, y.title = .str s) →
    l.mapM (sortKeyM lib tz) = .ok (l.map (sortKeyPure lib tz)) := by
  intro l
  induction l with
  | nil => intro _; rfl
  | cons x xs ih =>
    intro h
    obtain ⟨s, hs⟩ := h x (List.mem_cons_self x xs)
    rw [List.mapM_cons]
    have hx : sortKeyM lib tz x = .ok (sortKeyPure lib tz x) := by
      unfold sortKeyM sortKeyPure
      rw [hs]
    rw [hx, ih (fun y hy => h y (List.mem_cons_of_mem x hy))]
    rfl

/-- A successful sort-key pass means every title is a string and the keys are
the pure keys. -/
theorem mapM_sortKey_ok (lib : DtLib) (tz : Option ℤ) :
    ∀ (l : List Event) (ks : List (PyDateTime × String)),
    l.mapM (sortKeyM lib tz) = .ok ks →
    (∀ y ∈ l, ∃ s, y.title = .str s) ∧ ks = l.map (sortKeyPure lib tz) := by
  intro l
  induction l with
  | nil =>
    intro ks h
    have h' : (Except.ok [] : Except PyErr (List (PyDateTime × String))) =
      .ok ks := h
    have hks : ([] : List (PyDateTime × String)) = ks := by
      injection h'
    exact ⟨by simp, hks.symm⟩
  | cons x xs ih =>
    intro ks h
    rw [List.mapM_cons] at h
    obtain ⟨k, hk, h⟩ := exc_bind_eq_ok h
    obtain ⟨krest, hkrest, h⟩ := exc_bind_eq_ok h
    have hks : k :: krest = ks := by simpa [pure, Except.pure] using h
    obtain ⟨hk1, hk2⟩ := sortKeyM_ok lib tz x k hk
    obtain ⟨hall, hkeq⟩ := ih krest hkrest
    constructor
    · intro y hy
      rcases List.mem_cons.mp hy with hy | hy
      · subst hy; exact hk2
      · exact hall y hy
    · rw [← hks, hk1, hkeq]
      rfl

/-- A successful `Except` map factors through a successful computation. -/
theorem exc_map_eq_ok {α β : Type} {x : Except PyErr α} {f : α → β} {v : β}
    (h : x.map f = .ok v) : ∃ a, x = .ok a ∧ f a = v := by
  cases x with
  | ok a =>
    refine ⟨a, rfl, ?_⟩
    have : (Except.ok (f a) : Except PyErr β) = .ok v := h
    injection this
  | error e => exact absurd h (by simp [Except.map])

/-- Unpacking a successful sort: the output is the stable insertion sort of
the input, every input title is a string, and the input keys are
comparable. -/
theorem sort_events_ok (lib : DtLib) (tz : Option ℤ) (l ys : List Event)
    (h : sort_events lib tz l = .ok ys) :
    ys = l.insertionSort (evLe lib tz) ∧ (∀ y ∈ l, ∃ s, y.title = .str s) ∧
      uniformKeys (l.map (sortKeyPure lib tz)) = true := by
  unfold sort_events at h
  obtain ⟨ks, hks, h⟩ := exc_bind_eq_ok h
  obtain ⟨hall, hkeq⟩ := mapM_sortKey_ok lib tz l ks hks
  subst hkeq
  split at h
  · rename_i hu
    have : l.insertionSort (evLe lib tz) = ys := by
      simpa [pure, Except.pure] using h
    exact ⟨this.symm, hall, hu⟩
  · exact absurd h (by simp [throw, throwThe, MonadExceptOf.throw])

/-- A sorted, comparable, string-titled list sorts to itself. -/
theorem sort_events_of_sorted (lib : DtLib) (tz : Option ℤ) (ys : List Event)
    (htitles : ∀ y ∈ ys, ∃ s, y.title = .str s)
    (hu : uniformKeys (ys.map (sortKeyPure lib tz)) = true)
    (hs : List.Sorted (evLe lib tz) ys) : sort_events lib tz ys = .ok ys := by
  unfold sort_events
  rw [mapM_sortKey_of_titles lib tz ys htitles, exc_bind_ok, if_pos hu,
    List.Sorted.insertionSort_eq hs]
  rfl

/-- Key comparability is invariant under permutation. -/
theorem uniformKeys_perm (lib : DtLib) (tz : Option ℤ) {l l' : List Event}
    (hp : l.Perm l') :
    uniformKeys (l.map (sortKeyPure lib tz)) =
      uniformKeys (l'.map (sortKeyPure lib tz)) := by
  have hmap : (l.map (sortKeyPure lib tz)).Perm (l'.map (sortKeyPure lib tz)) :=
    hp.map (sortKeyPure lib tz)
  unfold uniformKeys
  rw [Bool.eq_iff_iff]
  simp only [Bool.or_eq_true, List.all_eq_true]
  constructor
  · rintro (h | h)
    · exact Or.inl fun k hk => h k (hmap.mem_iff.mpr hk)
    · exact Or.inr fun k hk => h k (hmap.mem_iff.mpr hk)
  · rintro (h | h)
    · exact Or.inl fun k hk => h k (hmap.mem_iff.mp hk)
    · exact Or.inr fun k hk => h k (hmap.mem_iff.mp hk)

/-- What a successful dedup guarantees: every kept Event is an input with a
computable key, and the kept Events' keys are pairwise distinct. -/
theorem dedupe_events_ok_char (lib : DtLib) (tz : Option ℤ)
    (l2 l3 : List Event) (h : dedupe_events lib tz l2 = .ok l3) :
    (∀ v ∈ l3, v ∈ l2 ∧ ∃ k, dkey lib tz v = .ok k) ∧
      (l3.map (fun v => dkey lib tz v)).Nodup := by
  unfold dedupe_events at h
  obtain ⟨seen, hgo, hmap⟩ := exc_map_eq_ok h
  obtain ⟨tg2, htg2⟩ := dedupeGo_ok_tagged lib tz l2 [] seen hgo
  have hfold := dedupeGo_eq_fold lib tz l2 tg2 [] htg2
  rw [hgo] at hfold
  have hseen : seen = tg2.foldl foldStep [] := by
    injection hfold
  rw [foldA_char] at hseen
  have hl3 : l3 = (firstDedup (tg2.map Prod.fst)).map
      (fun k => groupKept (keyGroup k tg2)) := by
    rw [← hmap, hseen, List.map_map]
    rfl
  have hentry : ∀ k ∈ firstDedup (tg2.map Prod.fst),
      dkey lib tz (groupKept (keyGroup k tg2)) = .ok k ∧
        groupKept (keyGroup k tg2) ∈ l2 := by
    intro k hk
    have hkmem : k ∈ tg2.map Prod.fst := (mem_firstDedup _ k).mp hk
    have hne : keyGroup k tg2 ≠ [] := keyGroup_ne_nil k tg2 hkmem
    have hkept : groupKept (keyGroup k tg2) ∈ keyGroup k tg2 :=
      groupKept_mem _ hne
    have hpair : (k, groupKept (keyGroup k tg2)) ∈ tg2 :=
      keyGroup_mem k tg2 _ hkept
    have := tagEvents_mem lib tz l2 tg2 htg2 _ hpair
    exact ⟨this.1, this.2⟩
  constructor
  · intro v hv
    rw [hl3] at hv
    obtain ⟨k, hk, hkv⟩ := List.mem_map.mp hv
    obtain ⟨hd, hm⟩ := hentry k hk
    rw [← hkv]
    exact ⟨hm, k, hd⟩
  · rw [hl3, List.map_map]
    have hmapeq : (firstDedup (tg2.map Prod.fst)).map
        ((fun v => dkey lib tz v) ∘ fun k => groupKept (keyGroup k tg2)) =
        (firstDedup (tg2.map Prod.fst)).map (fun k => Except.ok k) := by
      apply List.map_congr_left
      intro k hk
      exact (hentry k hk).1
    rw [hmapeq]
    refine List.Nodup.map ?_ (nodup_firstDedupAux _ [] List.nodup_nil)
    intro a b hab
    injection hab

/-- C9: at a fixed evaluation time, the geofence → time-window → dedup → sort
pipeline is idempotent — running it on its own successful output changes
nothing (and a failing run propagates the same failure). -/
theorem pipelineP_idempotent (hav : HavOracle) (cfg : Config) (lib : DtLib)
    (tz : Option ℤ) (now : PyDateTime) (xs : List Event) :
    (pipelineP hav cfg lib tz now xs >>= pipelineP hav cfg lib tz now) =
      pipelineP hav cfg lib tz now xs := by
  cases hP : pipelineP hav cfg lib tz now xs with
  | error e => exact exc_bind_error e _
  | ok ys =>
    rw [exc_bind_ok]
    unfold pipelineP at hP
    obtain ⟨l2, h2, hP⟩ := exc_bind_eq_ok hP
    obtain ⟨l3, h3, hsort⟩ := exc_bind_eq_ok hP
    obtain ⟨hys, htitles3, hu3⟩ := sort_events_ok lib tz l3 ys hsort
    have hperm : ys.Perm l3 := by
      rw [hys]
      exact List.perm_insertionSort (evLe lib tz) l3
    have hmem2 : ∀ y ∈ ys, y ∈ l2 ∧ ∃ k, dkey lib tz y = .ok k := by
      intro y hy
      exact (dedupe_events_ok_char lib tz l2 l3 h3).1 y (hperm.mem_iff.mp hy)
    have hmemf : ∀ y ∈ ys, y ∈ xs.filter (in_geofence hav cfg) ∧
        within_future_window lib tz cfg.futureDaysLimit now y = .ok true := by
      intro y hy
      exact pyFilterM_sub_true _ _ l2 h2 y (hmem2 y hy).1
    show pipelineP hav cfg lib tz now ys = .ok ys
    unfold pipelineP
    have hfil : ys.filter (in_geofence hav cfg) = ys := by
      rw [List.filter_eq_self]
      intro y hy
      exact (List.mem_filter.mp (hmemf y hy).1).2
    rw [hfil, pyFilterM_all_true _ ys (fun y hy => (hmemf y hy).2), exc_bind_ok]
    obtain ⟨tgys, htgys⟩ := tagEvents_exists lib tz ys
      (fun y hy => (hmem2 y hy).2)
    have hkeysnodup : (tgys.map Prod.fst).Nodup := by
      have h1 : tgys.map (fun p => Except.ok p.1 : DKey × Event → Except PyErr DKey) =
          ys.map (fun v => dkey lib tz v) := by
        rw [← tagEvents_snd lib tz ys tgys htgys, List.map_map]
        apply List.map_congr_left
        intro p hp
        exact (tagEvents_mem lib tz ys tgys htgys p hp).1.symm
      have h2' : (ys.map (fun v => dkey lib tz v)).Nodup := by
        refine (List.Perm.nodup_iff ?_).mpr
          (dedupe_events_ok_char lib tz l2 l3 h3).2
        exact hperm.map _
      rw [← h1] at h2'
      have h3' : tgys.map (fun p => Except.ok p.1 : DKey × Event → Except PyErr DKey) =
          (tgys.map Prod.fst).map Except.ok := by
        rw [List.map_map]
        rfl
      rw [h3'] at h2'
      exact h2'.of_map
    rw [dedupe_of_fresh lib tz ys tgys htgys hkeysnodup, exc_bind_ok]
    refine sort_events_of_sorted lib tz ys ?_ ?_ ?_
    · intro y hy
      have := htitles3 y (hperm.mem_iff.mp hy)
      exact this
    · rw [uniformKeys_perm lib tz hperm]
      exact hu3
    · rw [hys]
      exact List.sorted_insertionSort (evLe lib tz) l3
